import Mathlib

/-!
# Verification of `src/algorithms/vocal_engine.cpp`

A shallow embedding of the pitch-correction engine: the `State` record, `get_pitch`,
`snap_frequency`, `set_key`, `reset_state` and `process_frame`, followed by theorems about
them.

## Model of the C `float` type

The source computes in IEEE-754 binary32 (`float`, and the four lanes of `v128_t`).  A value of
the model type `F32` is a finite rational, a signed infinity, or NaN.  Every arithmetic
operation computes the exact rational result and rounds it with `round32`: round to nearest,
ties to even, 24 significant bits, gradual underflow below `2^-126`, overflow to infinity at
`2^128`.  The sign of zero is not tracked (`+0` and `-0` are both `fin 0`; C's comparison
operators do not tell them apart either).

## Model of buffers

`float*` parameters are lists; a read or write at an index outside the list yields `none`, and
`none` propagates through the `Option` monad.  A counting `for` loop whose body does not touch
its counter is a monadic fold over the list of counter values.
-/

namespace VocalEngine

/-! ## binary32 arithmetic -/

/-- A binary32 value: finite, signed infinity (`inf true` is `-∞`), or NaN. -/
inductive F32 where
  | fin (q : ℚ)
  | inf (negative : Bool)
  | nan
  deriving DecidableEq

/-- Exponent of the binade holding `a`, clamped below at the subnormal exponent `-126`. -/
def binade (a : ℚ) : ℤ := max (Int.log 2 |a|) (-126)

/-- Spacing of binary32 values around `a` (24-bit significand). -/
def ulp (a : ℚ) : ℚ := (2 : ℚ) ^ (binade a - 23)

/-- Nearest integer, ties to the even one. -/
def roundHalfEven (t : ℚ) : ℤ :=
  let f := ⌊t⌋
  let r := t - f
  if r < 1 / 2 then f else if 1 / 2 < r then f + 1 else if f % 2 = 0 then f else f + 1

/-- Nearest multiple of the local spacing, before the overflow check. -/
def roundFin (q : ℚ) : ℚ := (roundHalfEven (q / ulp q) : ℚ) * ulp q

/-- Rounding of an exact result to binary32. -/
def round32 (q : ℚ) : F32 :=
  let r := roundFin q
  if (2 : ℚ) ^ (128 : ℕ) ≤ |r| then F32.inf (decide (q < 0)) else F32.fin r

namespace F32

/-- Negation. -/
def neg : F32 → F32
  | fin a => fin (-a)
  | inf s => inf (!s)
  | nan => nan

/-- Addition `a + b`. -/
def add : F32 → F32 → F32
  | fin a, fin b => round32 (a + b)
  | fin _, inf s => inf s
  | inf s, fin _ => inf s
  | inf s, inf t => if s = t then inf s else nan
  | _, _ => nan

/-- Subtraction `a - b`. -/
def sub : F32 → F32 → F32
  | fin a, fin b => round32 (a - b)
  | fin _, inf s => inf (!s)
  | inf s, fin _ => inf s
  | inf s, inf t => if s = t then nan else inf s
  | _, _ => nan

/-- Multiplication `a * b`. -/
def mul : F32 → F32 → F32
  | fin a, fin b => round32 (a * b)
  | fin a, inf s => if a = 0 then nan else inf (xor (decide (a < 0)) s)
  | inf s, fin b => if b = 0 then nan else inf (xor s (decide (b < 0)))
  | inf s, inf t => inf (xor s t)
  | _, _ => nan

/-- Division `a / b`; a zero divisor counts as `+0`. -/
def div : F32 → F32 → F32
  | fin a, fin b =>
    if b = 0 then (if a = 0 then nan else inf (decide (a < 0))) else round32 (a / b)
  | fin _, inf _ => fin 0
  | inf s, fin b => inf (xor s (decide (b < 0)))
  | _, _ => nan

/-- The C comparison `a < b`: false as soon as one side is NaN. -/
def blt : F32 → F32 → Bool
  | fin a, fin b => decide (a < b)
  | fin _, inf s => !s
  | inf s, fin _ => s
  | inf s, inf t => s && !t
  | _, _ => false

/-- Conversion `(float)n` of an `int`. -/
def ofInt (n : ℤ) : F32 := round32 n

/-- A decimal literal with the `f` suffix, such as `0.33333333f`. -/
def lit (q : ℚ) : F32 := round32 q

/-- The conversion `(int)std::round(x)`: nearest integer, halves away from zero.  The C result
is undefined for infinities and NaN; the model returns `0` there. -/
def roundToInt : F32 → ℤ
  | fin a => if 0 ≤ a then ⌊a + 1 / 2⌋ else -⌊-a + 1 / 2⌋
  | _ => 0

instance : Neg F32 := ⟨neg⟩
instance : Add F32 := ⟨add⟩
instance : Sub F32 := ⟨sub⟩
instance : Mul F32 := ⟨mul⟩
instance : Div F32 := ⟨div⟩
instance : LT F32 := ⟨fun a b => blt a b = true⟩
instance (a b : F32) : Decidable (a < b) := inferInstanceAs (Decidable (blt a b = true))
instance (n : ℕ) : OfNat F32 n := ⟨round32 n⟩
instance : Inhabited F32 := ⟨fin 0⟩

/-- Exactly representable in binary32: rounding leaves the value alone. -/
def Representable : F32 → Prop
  | fin a => round32 a = fin a
  | _ => True

end F32

/-! ## Buffers -/

/-- Read `buf[i]`. -/
def readAt (buf : List F32) (i : ℤ) : Option F32 :=
  if 0 ≤ i then buf[i.toNat]? else none

/-- Store `buf[i] = v`. -/
def writeAt (buf : List F32) (i : ℤ) (v : F32) : Option (List F32) :=
  if 0 ≤ i ∧ i.toNat < buf.length then some (buf.set i.toNat v) else none

/-! ## Constants and state -/

def SAMPLE_RATE : ℤ := 44100
def BUFFER_SIZE : ℤ := 512
def MAX_LAG : ℤ := 600

/-- The `State` struct; the two arrays have a fixed size. -/
structure State where
  circular_buffer : Fin 2048 → F32
  write_ptr : ℤ
  phase : F32
  current_pitch : F32
  target_pitch : F32
  envelope : F32
  key_scale : Fin 12 → F32

/-- The static instance `st` at program start: arrays zero-initialised, the other members from
their default member initialisers. -/
def State.init : State where
  circular_buffer := fun _ => F32.lit 0
  write_ptr := 0
  phase := F32.lit 0
  current_pitch := F32.lit 440
  target_pitch := F32.lit 440
  envelope := F32.lit 0
  key_scale := fun _ => F32.lit 0

/-- The table `NOTE_FREQS`.  The initialisers are `double` literals converted to `float`; for
these twelve values that gives the same binary32 value as rounding the decimal once. -/
def NOTE_FREQS : List F32 :=
  [F32.lit 261.63, F32.lit 277.18, F32.lit 293.66, F32.lit 311.13, F32.lit 329.63,
   F32.lit 349.23, F32.lit 369.99, F32.lit 392.00, F32.lit 415.30, F32.lit 440.00,
   F32.lit 466.16, F32.lit 493.88]

/-! ## `get_pitch` -/

/-- The inner loop of `get_pitch` for one lag: `for (i = 0; i < len - MAX_LAG; i++)`. -/
def get_pitch_diff (buffer : List F32) (len : ℤ) (tau : ℤ) : Option F32 :=
  (List.range (len - MAX_LAG).toNat).foldlM
    (fun (diff : F32) (i : ℕ) => do
      let a ← readAt buffer (i : ℤ)
      let b ← readAt buffer ((i : ℤ) + tau)
      let delta := a - b
      pure (diff + delta * delta))
    (0 : F32)

/-- One iteration of the outer loop of `get_pitch` on the pair `(min_diff, best_tau)`. -/
def get_pitch_step (buffer : List F32) (len : ℤ) (acc : F32 × ℤ) (tau : ℤ) :
    Option (F32 × ℤ) := do
  let diff ← get_pitch_diff buffer len tau
  if diff < acc.1 then pure (diff, tau) else pure acc

/-- The lags visited by `for (int tau = 20; tau < MAX_LAG; tau++)`. -/
def lags : List ℤ :=
  (List.range (MAX_LAG - 20).toNat).map (fun (k : ℕ) => (20 : ℤ) + (k : ℤ))

/-- The function `get_pitch`. -/
def get_pitch (buffer : List F32) (len : ℤ) : Option F32 := do
  let r ← lags.foldlM (get_pitch_step buffer len) (F32.lit 1000000, 0)
  let best_tau := r.2
  if best_tau = 0 then pure (F32.lit 0)
  else pure (F32.ofInt SAMPLE_RATE / F32.ofInt best_tau)

/-! ## `snap_frequency` -/

/-- The function `snap_frequency`.  `std::log2` comes from the C library and is a parameter. -/
def snap_frequency (log2f : F32 → F32) (input_freq : F32) : F32 :=
  if input_freq < F32.lit 80 ∨ F32.lit 1200 < input_freq then input_freq
  else
    let log_freq := F32.lit 12 * log2f (input_freq / F32.lit 261.63)
    let semitone := (F32.roundToInt log_freq).tmod 12
    let _semitone := if semitone < 0 then semitone + 12 else semitone
    input_freq

/-! ## `set_key` and `reset_state` -/

/-- The function `set_key`: one store per loop iteration. -/
def set_key (st : State) (note_mask : ℤ) : State :=
  (List.finRange 12).foldl
    (fun (s : State) (i : Fin 12) =>
      let v := if Int.land note_mask ((1 : ℤ) <<< ((i : ℕ) : ℤ)) ≠ 0 then F32.lit 1 else F32.lit 0
      { s with key_scale := Function.update s.key_scale i v })
    st

/-- The function `reset_state`. -/
def reset_state (st : State) : State :=
  { st with circular_buffer := fun _ => F32.lit 0, write_ptr := 0 }

/-! ## `process_frame` -/

/-- The constant vector `third`, one lane. -/
def third : F32 := F32.lit 0.33333333

/-- One lane of the four-at-a-time loop body. -/
def shape_simd (x : F32) : F32 :=
  let squared := x * x
  let cubed := squared * x
  let scaled_cube := cubed * third
  x - scaled_cube

/-- The body of the cleanup loop. -/
def shape_scalar (x : F32) : F32 := x - (x * x * x / F32.lit 3)

/-- One iteration of the four-at-a-time loop: load four lanes, compute, store four lanes. -/
def simd_step (input output : List F32) (i : ℤ) : Option (List F32) := do
  let x0 ← readAt input i
  let x1 ← readAt input (i + 1)
  let x2 ← readAt input (i + 2)
  let x3 ← readAt input (i + 3)
  let o ← writeAt output i (shape_simd x0)
  let o ← writeAt o (i + 1) (shape_simd x1)
  let o ← writeAt o (i + 2) (shape_simd x2)
  writeAt o (i + 3) (shape_simd x3)

/-- One iteration of the cleanup loop. -/
def scalar_step (input output : List F32) (i : ℤ) : Option (List F32) := do
  let x ← readAt input i
  writeAt output i (shape_scalar x)

/-- The function `process_frame`; returns the state and the output buffer after the call. -/
def process_frame (st : State) (input output : List F32) (length : ℤ) (amount speed : F32) :
    Option (State × List F32) := do
  let detected_pitch ← get_pitch input length
  let _desired_pitch := detected_pitch
  let _pitch_ratio : F32 := F32.lit 1
  -- `if (detected_pitch > 80 && amount > 0.0f) { }` has an empty body
  let _taken := decide (F32.ofInt 80 < detected_pitch) && decide (F32.lit 0 < amount)
  let _speed := speed
  let simd_limit := length - length.tmod 4
  -- `for (int i = 0; i < simd_limit; i += 4)`
  let o ← (List.range ((simd_limit + 3) / 4).toNat).foldlM
    (fun out (k : ℕ) => simd_step input out (4 * (k : ℤ))) output
  -- `for (int i = simd_limit; i < length; i++)`
  let o ← (List.range (length - simd_limit).toNat).foldlM
    (fun out (k : ℕ) => scalar_step input out (simd_limit + (k : ℤ))) o
  pure (st, o)


/-! ## Definitions used in the statements -/

/-- State of the outer loop after the lags `20 .. 20 + n - 1`. -/
def LagInv (D : ℤ → F32) (n : ℕ) (acc : F32 × ℤ) : Prop :=
  (acc.2 = 0 ∧ acc.1 = F32.lit 1000000 ∧
      ∀ t : ℤ, 20 ≤ t → t < 20 + (n : ℤ) → ¬ D t < F32.lit 1000000) ∨
  (20 ≤ acc.2 ∧ acc.2 < 20 + (n : ℤ) ∧ acc.1 = D acc.2 ∧ D acc.2 < F32.lit 1000000 ∧
      (∀ t : ℤ, 20 ≤ t → t < 20 + (n : ℤ) → ¬ D t < D acc.2) ∧
      (∀ t : ℤ, 20 ≤ t → t < acc.2 → D acc.2 < D t ∨ D t = F32.nan))

/-- The block `process_frame` leaves in `output`: the four-at-a-time formula on the first
`N - N % 4` samples and the cleanup formula on the rest. -/
def shaped (input : List F32) : List F32 :=
  (input.take (input.length - input.length % 4)).map shape_simd ++
    (input.drop (input.length - input.length % 4)).map shape_scalar

/-- A block of 601 samples: `1000` followed by 600 zeros.  Every lag has the sum `1000000`. -/
def sentinelBlock : List F32 := F32.fin 1000 :: List.replicate 600 (F32.fin 0)

/-- A block of 601 samples that repeats after exactly 600 samples: `1`, 599 zeros, `1`. -/
def lag600Block : List F32 := F32.fin 1 :: (List.replicate 599 (F32.fin 0) ++ [F32.fin 1])

/-- The difference function of the specification for one lag: the sum over `i` in `[0, n)` of
`(block[i] - block[i + tau])^2`, accumulated in binary32 in increasing `i`. -/
def diffSum (block : List F32) (n tau : ℕ) : F32 :=
  (List.range n).foldl
    (fun (diff : F32) (i : ℕ) =>
      diff + (block.getD i (F32.fin 0) - block.getD (i + tau) (F32.fin 0)) *
        (block.getD i (F32.fin 0) - block.getD (i + tau) (F32.fin 0)))
    (F32.fin 0)

/-- The value of the local variable `semitone` of `snap_frequency` once it has been
normalised into `0..11`: `(int)std::round(12 * log2(f / 261.63f)) % 12`, plus 12 when
negative. -/
def snap_semitone (log2f : F32 → F32) (input_freq : F32) : ℤ :=
  let log_freq := F32.lit 12 * log2f (input_freq / F32.lit 261.63)
  let semitone := (F32.roundToInt log_freq).tmod 12
  if semitone < 0 then semitone + 12 else semitone

/-- A stand-in for `std::log2` that knows `log2(1) = 0` and nothing else. -/
def log2_at_one (x : F32) : F32 := if x = F32.fin 1 then F32.fin 0 else F32.nan

theorem roundHalfEven_eq_of_near (t : ℚ) (k : ℤ) (h1 : (k : ℚ) - 1 / 2 < t)
    (h2 : t < (k : ℚ) + 1 / 2) : roundHalfEven t = k := by
  have hf1 : ((⌊t⌋ : ℤ) : ℚ) ≤ t := Int.floor_le t
  have hf2 : t < ((⌊t⌋ : ℤ) : ℚ) + 1 := Int.lt_floor_add_one t
  have ha : ⌊t⌋ < k + 1 := by
    have : ((⌊t⌋ : ℤ) : ℚ) < ((k + 1 : ℤ) : ℚ) := by push_cast; linarith
    exact_mod_cast this
  have hb : k < ⌊t⌋ + 2 := by
    have : (k : ℚ) < ((⌊t⌋ + 2 : ℤ) : ℚ) := by push_cast; linarith
    exact_mod_cast this
  unfold roundHalfEven
  simp only
  split_ifs with c1 c2 c3
  · have : (k : ℚ) < ((⌊t⌋ + 1 : ℤ) : ℚ) := by push_cast; linarith
    have : k < ⌊t⌋ + 1 := by exact_mod_cast this
    omega
  · have : ((⌊t⌋ : ℤ) : ℚ) < (k : ℚ) := by linarith
    have : ⌊t⌋ < k := by exact_mod_cast this
    omega
  · have e : t - (⌊t⌋ : ℚ) = 1 / 2 := le_antisymm (not_lt.mp c2) (not_lt.mp c1)
    have : (k : ℚ) < ((⌊t⌋ + 1 : ℤ) : ℚ) := by push_cast; linarith
    have : k < ⌊t⌋ + 1 := by exact_mod_cast this
    have : ((⌊t⌋ : ℤ) : ℚ) < (k : ℚ) := by linarith
    have : ⌊t⌋ < k := by exact_mod_cast this
    omega
  · have e : t - (⌊t⌋ : ℚ) = 1 / 2 := le_antisymm (not_lt.mp c2) (not_lt.mp c1)
    have : (k : ℚ) < ((⌊t⌋ + 1 : ℤ) : ℚ) := by push_cast; linarith
    have : k < ⌊t⌋ + 1 := by exact_mod_cast this
    have : ((⌊t⌋ : ℤ) : ℚ) < (k : ℚ) := by linarith
    have : ⌊t⌋ < k := by exact_mod_cast this
    omega

theorem roundHalfEven_cases (t : ℚ) :
    (roundHalfEven t = ⌊t⌋ ∧ t - (⌊t⌋ : ℚ) ≤ 1 / 2) ∨
    (roundHalfEven t = ⌊t⌋ + 1 ∧ 1 / 2 ≤ t - (⌊t⌋ : ℚ)) := by
  unfold roundHalfEven
  simp only
  split_ifs with c1 c2 c3
  · exact Or.inl ⟨rfl, le_of_lt c1⟩
  · exact Or.inr ⟨rfl, le_of_lt c2⟩
  · exact Or.inl ⟨rfl, not_lt.mp c2⟩
  · exact Or.inr ⟨rfl, not_lt.mp c1⟩

theorem abs_roundHalfEven_sub_le (t : ℚ) : |(roundHalfEven t : ℚ) - t| ≤ 1 / 2 := by
  have hf1 : ((⌊t⌋ : ℤ) : ℚ) ≤ t := Int.floor_le t
  have hf2 : t < ((⌊t⌋ : ℤ) : ℚ) + 1 := Int.lt_floor_add_one t
  rw [abs_le]
  rcases roundHalfEven_cases t with ⟨h, c⟩ | ⟨h, c⟩
  · rw [h]; constructor <;> linarith
  · rw [h]; push_cast; constructor <;> linarith

theorem roundHalfEven_le_of_le (t : ℚ) (M : ℤ) (h : t ≤ (M : ℚ)) : roundHalfEven t ≤ M := by
  have hf1 : ((⌊t⌋ : ℤ) : ℚ) ≤ t := Int.floor_le t
  rcases roundHalfEven_cases t with ⟨e, _⟩ | ⟨e, c⟩
  · rw [e]
    have : ((⌊t⌋ : ℤ) : ℚ) ≤ (M : ℚ) := by linarith
    exact_mod_cast this
  · rw [e]
    have : ((⌊t⌋ : ℤ) : ℚ) < (M : ℚ) := by linarith
    have : ⌊t⌋ < M := by exact_mod_cast this
    omega

theorem le_roundHalfEven_of_le (t : ℚ) (M : ℤ) (h : (M : ℚ) ≤ t) : M ≤ roundHalfEven t := by
  have hf : M ≤ ⌊t⌋ := Int.le_floor.mpr h
  rcases roundHalfEven_cases t with ⟨e, _⟩ | ⟨e, _⟩ <;> rw [e] <;> omega

theorem ulp_pos (a : ℚ) : 0 < ulp a := by
  unfold ulp
  positivity

theorem binade_eq_of_bounds (a : ℚ) (e : ℤ) (he : -126 ≤ e) (h1 : (2 : ℚ) ^ e ≤ |a|)
    (h2 : |a| < (2 : ℚ) ^ (e + 1)) : binade a = e := by
  have hpos : 0 < |a| := lt_of_lt_of_le (by positivity) h1
  have hb : (1 : ℕ) < 2 := by norm_num
  have l1 : e ≤ Int.log 2 |a| := by
    rw [← Int.zpow_le_iff_le_log hb hpos]
    simpa using h1
  have l2 : Int.log 2 |a| < e + 1 := by
    rw [← Int.lt_zpow_iff_log_lt hb hpos]
    simpa using h2
  unfold binade
  omega

theorem binade_zero : binade 0 = 0 := by
  unfold binade
  rw [abs_zero, Int.log_of_right_le_zero 2 (le_refl (0 : ℚ))]
  rfl

theorem binade_le_zero (a : ℚ) (h : |a| ≤ 1) : binade a ≤ 0 := by
  by_cases h0 : a = 0
  · rw [h0, binade_zero]
  · have hpos : 0 < |a| := abs_pos.mpr h0
    have hb : (1 : ℕ) < 2 := by norm_num
    have l2 : Int.log 2 |a| < 1 := by
      rw [← Int.lt_zpow_iff_log_lt hb hpos]
      have : |a| < (2 : ℚ) ^ (1 : ℤ) := by norm_num; linarith
      simpa using this
    unfold binade
    omega

theorem round32_zero : round32 0 = F32.fin 0 := by
  unfold round32 roundFin
  have : roundHalfEven 0 = 0 := by
    apply roundHalfEven_eq_of_near <;> norm_num
  simp [this]

/-- Evaluation of `round32`: a multiple `k * 2^(e-23)` of the spacing of the binade `e` of `q`
that lies strictly within half a spacing of `q` is the rounded value. -/
theorem round32_eq_of_near (q r : ℚ) (e k : ℤ) (he : -126 ≤ e)
    (h1 : (2 : ℚ) ^ e ≤ q ∨ (2 : ℚ) ^ e ≤ -q)
    (h2 : -(2 : ℚ) ^ (e + 1) < q ∧ q < (2 : ℚ) ^ (e + 1))
    (hr : r = (k : ℚ) * (2 : ℚ) ^ (e - 23))
    (hc : -(2 : ℚ) ^ (e - 24) < q - r ∧ q - r < (2 : ℚ) ^ (e - 24))
    (hfin : -(2 : ℚ) ^ (128 : ℕ) < r ∧ r < (2 : ℚ) ^ (128 : ℕ)) :
    round32 q = F32.fin r := by
  have hb : binade q = e := by
    apply binade_eq_of_bounds q e he
    · rcases h1 with h | h
      · exact le_trans h (le_abs_self q)
      · exact le_trans h (neg_le_abs q)
    · exact abs_lt.mpr h2
  have hu : ulp q = (2 : ℚ) ^ (e - 23) := by unfold ulp; rw [hb]
  have hupos : (0 : ℚ) < (2 : ℚ) ^ (e - 23) := by positivity
  have hhalf : (2 : ℚ) ^ (e - 24) = (2 : ℚ) ^ (e - 23) / 2 := by
    have : e - 23 = (e - 24) + 1 := by ring
    rw [this, zpow_add_one₀ (by norm_num : (2 : ℚ) ≠ 0)]
    ring
  have hk : roundHalfEven (q / (2 : ℚ) ^ (e - 23)) = k := by
    apply roundHalfEven_eq_of_near
    · rw [lt_div_iff₀ hupos]
      have := hc.2
      rw [hhalf, hr] at this
      linarith
    · rw [div_lt_iff₀ hupos]
      have := hc.1
      rw [hhalf, hr] at this
      linarith
  have hrf : roundFin q = r := by
    unfold roundFin
    rw [hu, hk, hr]
  unfold round32
  simp only [hrf]
  rw [if_neg]
  rw [not_le, abs_lt]
  exact hfin

theorem round32_of_abs_le_one (q : ℚ) (h : |q| ≤ 1) :
    ∃ r : ℚ, round32 q = F32.fin r ∧ |r - q| ≤ 1 / 16777216 ∧ |r| ≤ 1 := by
  have hb0 : binade q ≤ 0 := binade_le_zero q h
  have hupos : 0 < ulp q := ulp_pos q
  -- the spacing is at most 2^-23
  have hule : ulp q ≤ 1 / 8388608 := by
    unfold ulp
    have : (2 : ℚ) ^ (binade q - 23) ≤ (2 : ℚ) ^ (-23 : ℤ) :=
      zpow_le_zpow_right₀ (by norm_num) (by omega)
    calc (2 : ℚ) ^ (binade q - 23) ≤ (2 : ℚ) ^ (-23 : ℤ) := this
      _ = 1 / 8388608 := by norm_num
  -- the reciprocal of the spacing is an integer
  obtain ⟨M, hM⟩ : ∃ M : ℤ, (M : ℚ) * ulp q = 1 := by
    refine ⟨(2 : ℤ) ^ (23 - binade q).toNat, ?_⟩
    unfold ulp
    have e1 : (((2 : ℤ) ^ (23 - binade q).toNat : ℤ) : ℚ) = (2 : ℚ) ^ (23 - binade q) := by
      push_cast
      rw [← zpow_natCast]
      congr 1
      omega
    rw [e1, ← zpow_add₀ (by norm_num : (2 : ℚ) ≠ 0)]
    have : 23 - binade q + (binade q - 23) = 0 := by ring
    rw [this, zpow_zero]
  have hq := abs_le.mp h
  have hk := abs_le.mp (abs_roundHalfEven_sub_le (q / ulp q))
  have hup : roundHalfEven (q / ulp q) ≤ M := by
    apply roundHalfEven_le_of_le
    rw [div_le_iff₀ hupos, hM]
    exact hq.2
  have hlo : -M ≤ roundHalfEven (q / ulp q) := by
    apply le_roundHalfEven_of_le
    rw [le_div_iff₀ hupos]
    push_cast
    rw [neg_mul, hM]
    exact hq.1
  have hupQ : (roundHalfEven (q / ulp q) : ℚ) ≤ (M : ℚ) := by exact_mod_cast hup
  have hloQ : -(M : ℚ) ≤ (roundHalfEven (q / ulp q) : ℚ) := by exact_mod_cast hlo
  have hr1 : |roundFin q| ≤ 1 := by
    unfold roundFin
    rw [abs_le]
    constructor
    · calc (-1 : ℚ) = -(M : ℚ) * ulp q := by rw [neg_mul, hM]
        _ ≤ (roundHalfEven (q / ulp q) : ℚ) * ulp q :=
            mul_le_mul_of_nonneg_right hloQ hupos.le
    · calc (roundHalfEven (q / ulp q) : ℚ) * ulp q ≤ (M : ℚ) * ulp q :=
            mul_le_mul_of_nonneg_right hupQ hupos.le
        _ = 1 := hM
  have herr : |roundFin q - q| ≤ 1 / 16777216 := by
    unfold roundFin
    have e : (roundHalfEven (q / ulp q) : ℚ) * ulp q - q
        = ((roundHalfEven (q / ulp q) : ℚ) - q / ulp q) * ulp q := by
      field_simp
    rw [e, abs_le]
    constructor
    · nlinarith [hk.1, hk.2]
    · nlinarith [hk.1, hk.2]
  refine ⟨roundFin q, ?_, herr, hr1⟩
  unfold round32
  simp only
  rw [if_neg]
  rw [not_le]
  calc |roundFin q| ≤ 1 := hr1
    _ < (2 : ℚ) ^ (128 : ℕ) := by norm_num


/-! ## Values of the literals -/

theorem lit_zero : F32.lit 0 = F32.fin 0 := round32_zero

theorem ofNat_zero : (0 : F32) = F32.fin 0 := by
  show round32 ((0 : ℕ) : ℚ) = F32.fin 0
  rw [Nat.cast_zero]
  exact round32_zero

theorem lit_one : F32.lit 1 = F32.fin 1 := by
  apply round32_eq_of_near 1 1 0 8388608 <;> norm_num

theorem lit_three : F32.lit 3 = F32.fin 3 := by
  apply round32_eq_of_near 3 3 1 12582912 <;> norm_num

theorem lit_80 : F32.lit 80 = F32.fin 80 := by
  apply round32_eq_of_near 80 80 6 10485760 <;> norm_num

theorem lit_1200 : F32.lit 1200 = F32.fin 1200 := by
  apply round32_eq_of_near 1200 1200 10 9830400 <;> norm_num

theorem lit_sentinel : F32.lit 1000000 = F32.fin 1000000 := by
  apply round32_eq_of_near 1000000 1000000 19 16000000 <;> norm_num

theorem third_eq : third = F32.fin (11184811 / 33554432) := by
  apply round32_eq_of_near _ _ (-2) 11184811 <;> norm_num

theorem ofInt_sample_rate : F32.ofInt SAMPLE_RATE = F32.fin 44100 := by
  apply round32_eq_of_near _ _ 15 11289600 <;> norm_num [SAMPLE_RATE]

/-! ## The operations on finite values -/

theorem fin_mul_fin (a b : ℚ) : F32.fin a * F32.fin b = round32 (a * b) := rfl
theorem fin_add_fin (a b : ℚ) : F32.fin a + F32.fin b = round32 (a + b) := rfl
theorem fin_sub_fin (a b : ℚ) : F32.fin a - F32.fin b = round32 (a - b) := rfl
theorem fin_div_fin (a b : ℚ) (hb : b ≠ 0) : F32.fin a / F32.fin b = round32 (a / b) := by
  show F32.div (F32.fin a) (F32.fin b) = _
  simp [F32.div, hb]
theorem fin_lt_fin (a b : ℚ) : F32.fin a < F32.fin b ↔ a < b := by
  show F32.blt (F32.fin a) (F32.fin b) = true ↔ _
  simp [F32.blt]

/-! ## Accuracy of the shaper on samples in `[-1, 1]` -/

theorem abs_mul_le_one (a b : ℚ) (ha : |a| ≤ 1) (hb : |b| ≤ 1) : |a * b| ≤ 1 := by
  rw [abs_mul]
  calc |a| * |b| ≤ 1 * 1 := mul_le_mul ha hb (abs_nonneg b) (by norm_num)
    _ = 1 := by norm_num

theorem abs_mul_le_left (e q d : ℚ) (he : |e| ≤ d) (hq : |q| ≤ 1) : |e * q| ≤ d := by
  rw [abs_mul]
  calc |e| * |q| ≤ d * 1 := mul_le_mul he hq (abs_nonneg q) (le_trans (abs_nonneg e) he)
    _ = d := by ring

theorem abs_cubic_le (q : ℚ) (h : |q| ≤ 1) : |q - q ^ 3 / 3| ≤ 2 / 3 := by
  have hq := abs_le.mp h
  rw [abs_le]
  constructor
  · nlinarith [mul_nonneg (sq_nonneg (1 + q)) (by linarith : (0 : ℚ) ≤ 2 - q)]
  · nlinarith [mul_nonneg (sq_nonneg (1 - q)) (by linarith : (0 : ℚ) ≤ q + 2)]

/-- The cube as the source computes it, `(x * x) * x` in binary32, for `|x| ≤ 1`. -/
theorem cube_near (q : ℚ) (h : |q| ≤ 1) :
    ∃ c : ℚ, F32.fin q * F32.fin q * F32.fin q = F32.fin c ∧ |c - q ^ 3| ≤ 2 / 16777216 ∧
      |c| ≤ 1 := by
  obtain ⟨s, hs, es, bs⟩ := round32_of_abs_le_one (q * q) (abs_mul_le_one q q h h)
  obtain ⟨c, hc, ec, bc⟩ := round32_of_abs_le_one (s * q) (abs_mul_le_one s q bs h)
  refine ⟨c, ?_, ?_, bc⟩
  · rw [fin_mul_fin, hs, fin_mul_fin, hc]
  · have e1 : |(s - q * q) * q| ≤ 1 / 16777216 := abs_mul_le_left _ _ _ es h
    have e1' := abs_le.mp e1
    have ec' := abs_le.mp ec
    rw [abs_le]
    constructor <;> nlinarith

theorem shape_scalar_near (q : ℚ) (h : |q| ≤ 1) :
    ∃ r : ℚ, shape_scalar (F32.fin q) = F32.fin r ∧ |r - (q - q ^ 3 / 3)| ≤ 3 / 16777216 := by
  obtain ⟨c, hc, ec, bc⟩ := cube_near q h
  have bc' := abs_le.mp bc
  have ec' := abs_le.mp ec
  have hp := abs_le.mp (abs_cubic_le q h)
  obtain ⟨d, hd, ed, bd⟩ := round32_of_abs_le_one (c / 3)
    (by rw [abs_le]; constructor <;> linarith)
  have ed' := abs_le.mp ed
  obtain ⟨y, hy, ey, _⟩ := round32_of_abs_le_one (q - d)
    (by rw [abs_le]; constructor <;> linarith)
  have ey' := abs_le.mp ey
  refine ⟨y, ?_, ?_⟩
  · unfold shape_scalar
    rw [hc, lit_three, fin_div_fin _ _ (by norm_num), hd, fin_sub_fin, hy]
  · rw [abs_le]
    constructor <;> linarith

theorem shape_simd_near (q : ℚ) (h : |q| ≤ 1) :
    ∃ r : ℚ, shape_simd (F32.fin q) = F32.fin r ∧ |r - (q - q ^ 3 / 3)| ≤ 3 / 16777216 := by
  obtain ⟨c, hc, ec, bc⟩ := cube_near q h
  have bc' := abs_le.mp bc
  have ec' := abs_le.mp ec
  have hq3 : |q ^ 3| ≤ 1 := by
    have : q ^ 3 = (q * q) * q := by ring
    rw [this]
    exact abs_mul_le_one _ _ (abs_mul_le_one q q h h) h
  have hq3' := abs_le.mp hq3
  have hp := abs_le.mp (abs_cubic_le q h)
  obtain ⟨d, hd, ed, bd⟩ := round32_of_abs_le_one (c * (11184811 / 33554432))
    (by rw [abs_le]; constructor <;> linarith)
  have ed' := abs_le.mp ed
  obtain ⟨y, hy, ey, _⟩ := round32_of_abs_le_one (q - d)
    (by rw [abs_le]; constructor <;> linarith)
  have ey' := abs_le.mp ey
  refine ⟨y, ?_, ?_⟩
  · unfold shape_simd
    simp only
    rw [hc, third_eq, fin_mul_fin, hd, fin_sub_fin, hy]
  · rw [abs_le]
    constructor <;> linarith


/-! ## Loops and buffers -/

/-- Invariant rule for a counting loop in the `Option` monad. -/
theorem foldlM_range_inv {β : Type} (f : β → ℕ → Option β) (Inv : ℕ → β → Prop) (n : ℕ)
    (b0 : β) (h0 : Inv 0 b0)
    (hstep : ∀ k b, k < n → Inv k b → ∃ b', f b k = some b' ∧ Inv (k + 1) b') :
    ∃ b, (List.range n).foldlM f b0 = some b ∧ Inv n b := by
  induction n with
  | zero => exact ⟨b0, rfl, h0⟩
  | succ n ih =>
    obtain ⟨b, hb, hI⟩ := ih (fun k b hk hI => hstep k b (Nat.lt_succ_of_lt hk) hI)
    obtain ⟨b', hb', hI'⟩ := hstep n b (Nat.lt_succ_self n) hI
    refine ⟨b', ?_, hI'⟩
    rw [List.range_succ, List.foldlM_append, hb]
    simp [hb']

theorem readAt_eq (buf : List F32) (i : ℤ) (n : ℕ) (h : i = (n : ℤ)) :
    readAt buf i = buf[n]? := by
  subst h
  simp [readAt]

theorem writeAt_eq (buf : List F32) (i : ℤ) (n : ℕ) (v : F32) (h : i = (n : ℤ))
    (hn : n < buf.length) : writeAt buf i v = some (buf.set n v) := by
  subst h
  simp [writeAt, hn]

theorem simd_step_spec (input output : List F32) (i : ℤ) (n : ℕ) (h : i = (n : ℤ))
    (hi : n + 3 < input.length) (ho : n + 3 < output.length) :
    ∃ o, simd_step input output i = some o ∧ o.length = output.length ∧
      ∀ j, o[j]? = if n ≤ j ∧ j < n + 4 then input[j]?.map shape_simd else output[j]? := by
  have r0 : readAt input i = some input[n] := by
    rw [readAt_eq input i n h, List.getElem?_eq_getElem]
  have r1 : readAt input (i + 1) = some input[n + 1] := by
    rw [readAt_eq input (i + 1) (n + 1) (by rw [h]; push_cast; ring), List.getElem?_eq_getElem]
  have r2 : readAt input (i + 2) = some input[n + 2] := by
    rw [readAt_eq input (i + 2) (n + 2) (by rw [h]; push_cast; ring), List.getElem?_eq_getElem]
  have r3 : readAt input (i + 3) = some input[n + 3] := by
    rw [readAt_eq input (i + 3) (n + 3) (by rw [h]; push_cast; ring), List.getElem?_eq_getElem]
  refine ⟨(((output.set n (shape_simd input[n])).set (n + 1) (shape_simd input[n + 1])).set
      (n + 2) (shape_simd input[n + 2])).set (n + 3) (shape_simd input[n + 3]), ?_, ?_, ?_⟩
  · unfold simd_step
    rw [r0, r1, r2, r3]
    simp only [Option.bind_eq_bind, Option.some_bind]
    rw [writeAt_eq output i n _ h (by omega)]
    simp only [Option.some_bind]
    rw [writeAt_eq _ (i + 1) (n + 1) _ (by rw [h]; push_cast; ring)
      (by simp only [List.length_set]; omega)]
    simp only [Option.some_bind]
    rw [writeAt_eq _ (i + 2) (n + 2) _ (by rw [h]; push_cast; ring)
      (by simp only [List.length_set]; omega)]
    simp only [Option.some_bind]
    rw [writeAt_eq _ (i + 3) (n + 3) _ (by rw [h]; push_cast; ring)
      (by simp only [List.length_set]; omega)]
  · simp only [List.length_set]
  · intro j
    simp only [List.getElem?_set, List.length_set]
    by_cases c3 : n + 3 = j
    · subst c3
      simp [ho, List.getElem?_eq_getElem hi]
    · by_cases c2 : n + 2 = j
      · subst c2
        have : n + 2 < output.length := by omega
        have hi2 : n + 2 < input.length := by omega
        simp [this, List.getElem?_eq_getElem hi2]
      · by_cases c1 : n + 1 = j
        · subst c1
          have : n + 1 < output.length := by omega
          have hi1 : n + 1 < input.length := by omega
          simp [this, List.getElem?_eq_getElem hi1]
        · by_cases c0 : n = j
          · subst c0
            have : n < output.length := by omega
            have hi0 : n < input.length := by omega
            simp [this, List.getElem?_eq_getElem hi0]
          · have : ¬ (n ≤ j ∧ j < n + 4) := by omega
            simp [c0, c1, c2, c3, this]

theorem scalar_step_spec (input output : List F32) (i : ℤ) (n : ℕ) (h : i = (n : ℤ))
    (hi : n < input.length) (ho : n < output.length) :
    ∃ o, scalar_step input output i = some o ∧ o.length = output.length ∧
      ∀ j, o[j]? = if j = n then input[j]?.map shape_scalar else output[j]? := by
  refine ⟨output.set n (shape_scalar input[n]), ?_, ?_, ?_⟩
  · unfold scalar_step
    rw [readAt_eq input i n h, List.getElem?_eq_getElem hi]
    simp only [Option.bind_eq_bind, Option.some_bind]
    rw [writeAt_eq output i n _ h ho]
  · simp only [List.length_set]
  · intro j
    simp only [List.getElem?_set]
    by_cases c : n = j
    · subst c
      simp [ho, List.getElem?_eq_getElem hi]
    · have : ¬ j = n := fun e => c e.symm
      simp [c, this]


/-! ## `get_pitch`: the window stays inside the block -/

theorem get_pitch_diff_some (buffer : List F32) (N : ℕ) (tau : ℤ) (h : buffer.length = N)
    (h0 : 0 ≤ tau) (h1 : tau < 600) : ∃ d, get_pitch_diff buffer (N : ℤ) tau = some d := by
  obtain ⟨d, hd, _⟩ := foldlM_range_inv
    (fun (diff : F32) (i : ℕ) => do
      let a ← readAt buffer (i : ℤ)
      let b ← readAt buffer ((i : ℤ) + tau)
      let delta := a - b
      pure (diff + delta * delta))
    (fun _ _ => True) ((N : ℤ) - MAX_LAG).toNat (0 : F32) trivial
    (by
      intro k b hk _
      have hk' : (k : ℤ) < (N : ℤ) - 600 := by
        have := hk
        unfold MAX_LAG at this
        omega
      have ha : k < buffer.length := by omega
      have hb : (k + tau.toNat) < buffer.length := by omega
      dsimp only
      rw [readAt_eq buffer (k : ℤ) k rfl, List.getElem?_eq_getElem ha,
        readAt_eq buffer ((k : ℤ) + tau) (k + tau.toNat) (by push_cast; omega),
        List.getElem?_eq_getElem hb]
      exact ⟨_, rfl, trivial⟩)
  exact ⟨d, hd⟩

/-- With no more than `MAX_LAG` samples the inner loop does not run. -/
theorem get_pitch_diff_short (buffer : List F32) (len : ℤ) (tau : ℤ) (h : len ≤ 600) :
    get_pitch_diff buffer len tau = some (F32.fin 0) := by
  unfold get_pitch_diff
  have : (len - MAX_LAG).toNat = 0 := by
    unfold MAX_LAG
    omega
  rw [this, ofNat_zero]
  rfl

/-! ## The order on binary32 values -/

theorem f32_lt_irrefl (a : F32) : ¬ a < a := by
  show ¬ F32.blt a a = true
  cases a <;> simp [F32.blt]

theorem f32_lt_trans (a b c : F32) (h1 : a < b) (h2 : b < c) : a < c := by
  have h1' : F32.blt a b = true := h1
  have h2' : F32.blt b c = true := h2
  show F32.blt a c = true
  cases a <;> cases b <;> cases c <;> simp_all [F32.blt]
  exact lt_trans h1' h2'

/-- Values that are not NaN are totally ordered. -/
theorem f32_lt_of_lt_of_not_lt (a b c : F32) (h1 : a < b) (h2 : ¬ c < b) :
    a < c ∨ c = F32.nan := by
  have h1' : F32.blt a b = true := h1
  have h2' : ¬ F32.blt c b = true := h2
  show F32.blt a c = true ∨ c = F32.nan
  cases a <;> cases b <;> cases c <;> simp_all [F32.blt]
  exact lt_of_lt_of_le h1' h2'

/-! ## `get_pitch`: the lag that is selected -/

theorem get_pitch_loop_aux (buffer : List F32) (len : ℤ) (D : ℤ → F32)
    (hD : ∀ tau : ℤ, 20 ≤ tau → tau < 600 → get_pitch_diff buffer len tau = some (D tau))
    (n : ℕ) (hn : n ≤ 580) :
    ∃ acc, (List.range n).foldlM (fun acc (k : ℕ) => get_pitch_step buffer len acc (20 + (k : ℤ)))
        (F32.lit 1000000, 0) = some acc ∧ LagInv D n acc := by
  apply foldlM_range_inv _ (LagInv D) n
  · left
    refine ⟨rfl, rfl, ?_⟩
    intro t h1 h2
    omega
  · intro k acc hk hI
    have hx1 : (20 : ℤ) ≤ 20 + (k : ℤ) := by omega
    have hx2 : 20 + (k : ℤ) < 600 := by omega
    unfold get_pitch_step
    rw [hD _ hx1 hx2]
    simp only [Option.bind_eq_bind, Option.some_bind]
    by_cases c : D (20 + (k : ℤ)) < acc.1
    · rw [if_pos c]
      refine ⟨_, rfl, ?_⟩
      right
      rcases hI with ⟨_, hm, hall⟩ | ⟨hb1, hb2, hm, hlt, hmin, hfirst⟩
      · rw [hm] at c
        refine ⟨hx1, by push_cast; omega, rfl, c, ?_, ?_⟩
        · intro t h1 h2 hlt
          by_cases e : t = 20 + (k : ℤ)
          · rw [e] at hlt
            exact f32_lt_irrefl _ hlt
          · exact hall t h1 (by push_cast at h2; omega) (f32_lt_trans _ _ _ hlt c)
        · intro t h1 h2
          exact f32_lt_of_lt_of_not_lt _ _ _ c (hall t h1 h2)
      · rw [hm] at c
        refine ⟨hx1, by push_cast; omega, rfl, f32_lt_trans _ _ _ c hlt, ?_, ?_⟩
        · intro t h1 h2 hlt'
          by_cases e : t = 20 + (k : ℤ)
          · rw [e] at hlt'
            exact f32_lt_irrefl _ hlt'
          · exact hmin t h1 (by push_cast at h2; omega) (f32_lt_trans _ _ _ hlt' c)
        · intro t h1 h2
          exact f32_lt_of_lt_of_not_lt _ _ _ c (hmin t h1 h2)
    · rw [if_neg c]
      refine ⟨_, rfl, ?_⟩
      rcases hI with ⟨hb, hm, hall⟩ | ⟨hb1, hb2, hm, hlt, hmin, hfirst⟩
      · left
        refine ⟨hb, hm, ?_⟩
        intro t h1 h2
        by_cases e : t = 20 + (k : ℤ)
        · rw [e, ← hm]
          exact c
        · exact hall t h1 (by push_cast at h2; omega)
      · right
        refine ⟨hb1, by push_cast; omega, hm, hlt, ?_, hfirst⟩
        intro t h1 h2
        by_cases e : t = 20 + (k : ℤ)
        · rw [e, ← hm]
          exact c
        · exact hmin t h1 (by push_cast at h2; omega)

theorem get_pitch_loop (buffer : List F32) (len : ℤ) (D : ℤ → F32)
    (hD : ∀ tau : ℤ, 20 ≤ tau → tau < 600 → get_pitch_diff buffer len tau = some (D tau)) :
    ∃ acc, lags.foldlM (get_pitch_step buffer len) (F32.lit 1000000, 0) = some acc ∧
      LagInv D 580 acc := by
  have hl : (MAX_LAG - 20).toNat = 580 := by unfold MAX_LAG; omega
  obtain ⟨acc, h1, h2⟩ := get_pitch_loop_aux buffer len D hD (MAX_LAG - 20).toNat (by omega)
  rw [hl] at h2
  refine ⟨acc, ?_, h2⟩
  unfold lags
  rw [List.foldlM_map]
  exact h1

/-- The result of `get_pitch` in terms of the sums `D tau` of the inner loop: `0` when no sum
is below the initial `min_diff`, otherwise `44100 / best` for the first lag `best` whose sum
no other sum is below. -/
theorem get_pitch_of_diffs (buffer : List F32) (len : ℤ) (D : ℤ → F32)
    (hD : ∀ tau : ℤ, 20 ≤ tau → tau < 600 → get_pitch_diff buffer len tau = some (D tau)) :
    (get_pitch buffer len = some (F32.lit 0) ∧
      ∀ t : ℤ, 20 ≤ t → t < 600 → ¬ D t < F32.lit 1000000) ∨
    (∃ best : ℤ, 20 ≤ best ∧ best < 600 ∧
      get_pitch buffer len = some (F32.ofInt SAMPLE_RATE / F32.ofInt best) ∧
      D best < F32.lit 1000000 ∧
      (∀ t : ℤ, 20 ≤ t → t < 600 → ¬ D t < D best) ∧
      (∀ t : ℤ, 20 ≤ t → t < best → D best < D t ∨ D t = F32.nan)) := by
  obtain ⟨acc, hacc, hI⟩ := get_pitch_loop buffer len D hD
  unfold get_pitch
  rw [hacc]
  simp only [Option.bind_eq_bind, Option.some_bind]
  rcases hI with ⟨hb, _, hall⟩ | ⟨hb1, hb2, _, hlt, hmin, hfirst⟩
  · left
    rw [if_pos hb]
    exact ⟨rfl, fun t h1 h2 => hall t h1 (by push_cast; omega)⟩
  · right
    have hne : ¬ acc.2 = 0 := by omega
    rw [if_neg hne]
    exact ⟨acc.2, hb1, by push_cast at hb2; omega, rfl, hlt,
      fun t h1 h2 => hmin t h1 (by push_cast; omega), hfirst⟩


theorem get_pitch_some (buffer : List F32) (N : ℕ) (h : buffer.length = N) :
    ∃ p, get_pitch buffer (N : ℤ) = some p := by
  have hex : ∀ tau : ℤ, ∃ d, 20 ≤ tau → tau < 600 →
      get_pitch_diff buffer (N : ℤ) tau = some d := by
    intro tau
    by_cases c : 20 ≤ tau ∧ tau < 600
    · obtain ⟨d, hd⟩ := get_pitch_diff_some buffer N tau h (by omega) c.2
      exact ⟨d, fun _ _ => hd⟩
    · exact ⟨F32.nan, fun h1 h2 => absurd ⟨h1, h2⟩ c⟩
  choose D hD using hex
  rcases get_pitch_of_diffs buffer (N : ℤ) D hD with ⟨h1, _⟩ | ⟨best, _, _, h1, _⟩
  · exact ⟨_, h1⟩
  · exact ⟨_, h1⟩

/-! ## `process_frame`: the output block -/

theorem shaped_length (input : List F32) : (shaped input).length = input.length := by
  unfold shaped
  simp only [List.length_append, List.length_map, List.length_take, List.length_drop]
  omega

theorem shaped_getElem? (input : List F32) (j : ℕ) :
    (shaped input)[j]? =
      if j < input.length - input.length % 4 then input[j]?.map shape_simd
      else input[j]?.map shape_scalar := by
  unfold shaped
  by_cases c : j < input.length - input.length % 4
  · rw [if_pos c, List.getElem?_append_left (by simp; omega), List.getElem?_map,
      List.getElem?_take_of_lt c]
  · rw [if_neg c, List.getElem?_append_right (by simp; omega), List.getElem?_map,
      List.getElem?_drop]
    congr 2
    simp only [List.length_map, List.length_take]
    omega

theorem simd_loop_spec (input output : List F32) (n : ℕ) (hi : 4 * n ≤ input.length)
    (ho : 4 * n ≤ output.length) :
    ∃ o, (List.range n).foldlM (fun out (k : ℕ) => simd_step input out (4 * (k : ℤ))) output
        = some o ∧ o.length = output.length ∧
      ∀ j, o[j]? = if j < 4 * n then input[j]?.map shape_simd else output[j]? := by
  have := foldlM_range_inv (fun out (k : ℕ) => simd_step input out (4 * (k : ℤ)))
    (fun k o => o.length = output.length ∧
      ∀ j, o[j]? = if j < 4 * k then input[j]?.map shape_simd else output[j]?)
    n output ⟨rfl, fun j => by simp⟩
    (by
      intro k b hk hI
      obtain ⟨hlen, hpt⟩ := hI
      obtain ⟨o, h1, h2, h3⟩ := simd_step_spec input b (4 * (k : ℤ)) (4 * k) (by push_cast; ring)
        (by omega) (by omega)
      refine ⟨o, h1, by omega, ?_⟩
      intro j
      rw [h3 j, hpt j]
      by_cases c1 : j < 4 * k
      · have c2 : ¬ (4 * k ≤ j ∧ j < 4 * k + 4) := by omega
        have c3 : j < 4 * (k + 1) := by omega
        rw [if_neg c2, if_pos c1, if_pos c3]
      · by_cases c2 : j < 4 * k + 4
        · have c3 : j < 4 * (k + 1) := by omega
          rw [if_pos ⟨by omega, c2⟩, if_pos c3]
        · have c3 : ¬ j < 4 * (k + 1) := by omega
          have c4 : ¬ (4 * k ≤ j ∧ j < 4 * k + 4) := by omega
          rw [if_neg c4, if_neg c1, if_neg c3])
  exact this

theorem scalar_loop_spec (input output : List F32) (L : ℤ) (l n : ℕ) (hL : L = (l : ℤ))
    (hi : l + n ≤ input.length) (ho : l + n ≤ output.length) :
    ∃ o, (List.range n).foldlM (fun out (k : ℕ) => scalar_step input out (L + (k : ℤ))) output
        = some o ∧ o.length = output.length ∧
      ∀ j, o[j]? = if l ≤ j ∧ j < l + n then input[j]?.map shape_scalar else output[j]? := by
  have := foldlM_range_inv (fun out (k : ℕ) => scalar_step input out (L + (k : ℤ)))
    (fun k o => o.length = output.length ∧
      ∀ j, o[j]? = if l ≤ j ∧ j < l + k then input[j]?.map shape_scalar else output[j]?)
    n output ⟨rfl, fun j => by
      have : ¬ (l ≤ j ∧ j < l + 0) := by omega
      rw [if_neg this]⟩
    (by
      intro k b hk hI
      obtain ⟨hlen, hpt⟩ := hI
      obtain ⟨o, h1, h2, h3⟩ := scalar_step_spec input b (L + (k : ℤ)) (l + k)
        (by rw [hL]; push_cast; ring) (by omega) (by omega)
      refine ⟨o, h1, by omega, ?_⟩
      intro j
      rw [h3 j, hpt j]
      by_cases c1 : j = l + k
      · have c3 : l ≤ j ∧ j < l + (k + 1) := by omega
        rw [if_pos c1, if_pos c3]
      · by_cases c2 : l ≤ j ∧ j < l + k
        · have c3 : l ≤ j ∧ j < l + (k + 1) := by omega
          rw [if_neg c1, if_pos c2, if_pos c3]
        · have c3 : ¬ (l ≤ j ∧ j < l + (k + 1)) := by omega
          rw [if_neg c1, if_neg c2, if_neg c3])
  exact this

/-- On buffers of the declared length `process_frame` returns, leaves the state alone and
fills `output` with `shaped input`. -/
theorem process_frame_eq (st : State) (input output : List F32) (N : ℕ) (amount speed : F32)
    (hi : input.length = N) (ho : output.length = N) :
    process_frame st input output (N : ℤ) amount speed = some (st, shaped input) := by
  obtain ⟨p, hp⟩ := get_pitch_some input N hi
  have hmod : ((N : ℤ)).tmod 4 = ((N % 4 : ℕ) : ℤ) := by
    rw [Int.tmod_eq_emod (by omega) (by norm_num)]
    omega
  have hlim : (N : ℤ) - ((N : ℤ)).tmod 4 = ((N - N % 4 : ℕ) : ℤ) := by
    rw [hmod]
    omega
  have hn1 : (((N : ℤ) - ((N : ℤ)).tmod 4 + 3) / 4).toNat = N / 4 := by
    rw [hlim]
    omega
  have hn2 : ((N : ℤ) - ((N : ℤ) - ((N : ℤ)).tmod 4)).toNat = N % 4 := by
    rw [hlim]
    omega
  obtain ⟨o1, e1, l1, p1⟩ := simd_loop_spec input output (N / 4) (by omega) (by omega)
  obtain ⟨o2, e2, l2, p2⟩ := scalar_loop_spec input o1 ((N : ℤ) - ((N : ℤ)).tmod 4)
    (N - N % 4) (N % 4) hlim (by omega) (by omega)
  unfold process_frame
  rw [hp]
  simp only [Option.bind_eq_bind, Option.some_bind]
  rw [hn1, e1]
  simp only [Option.some_bind]
  rw [hn2, e2]
  simp only [Option.some_bind]
  have hfin : o2 = shaped input := by
    apply List.ext_getElem?
    intro j
    rw [p2 j, p1 j, shaped_getElem?]
    by_cases c1 : j < N - N % 4
    · have c2 : ¬ (N - N % 4 ≤ j ∧ j < N - N % 4 + N % 4) := by omega
      have c3 : j < 4 * (N / 4) := by omega
      have c4 : j < input.length - input.length % 4 := by omega
      rw [if_neg c2, if_pos c3, if_pos c4]
    · have c4 : ¬ j < input.length - input.length % 4 := by omega
      rw [if_neg c4]
      by_cases c2 : j < N
      · have c5 : N - N % 4 ≤ j ∧ j < N - N % 4 + N % 4 := by omega
        rw [if_pos c5]
      · have c5 : ¬ (N - N % 4 ≤ j ∧ j < N - N % 4 + N % 4) := by omega
        have c3 : ¬ j < 4 * (N / 4) := by omega
        rw [if_neg c5, if_neg c3]
        have e1 : output[j]? = none := List.getElem?_eq_none (by omega)
        have e2 : input[j]? = none := List.getElem?_eq_none (by omega)
        rw [e1, e2]
        rfl
  rw [hfin]
  rfl


/-! ## `set_key`: bits of the mask -/


theorem shl_one (i : ℕ) : (1 : ℤ) <<< ((i : ℕ) : ℤ) = (((2 ^ i : ℕ)) : ℤ) := by
  rw [Int.shiftLeft_eq_mul_pow]
  simp

theorem nat_ldiff_two_pow_ne_zero (a i : ℕ) : Nat.ldiff (2 ^ i) a ≠ 0 ↔ a.testBit i = false := by
  constructor
  · intro h
    by_contra hc
    apply h
    apply Nat.eq_of_testBit_eq
    intro j
    rw [Nat.testBit_ldiff, Nat.testBit_two_pow, Nat.zero_testBit]
    by_cases e : i = j
    · subst e
      simp at hc
      simp [hc]
    · simp [e]
  · intro h h0
    have := congrArg (fun x => Nat.testBit x i) h0
    simp only [Nat.testBit_ldiff, Nat.testBit_two_pow, Nat.zero_testBit, h] at this
    simp at this

theorem nat_land_two_pow_ne_zero (a i : ℕ) : a &&& 2 ^ i ≠ 0 ↔ a.testBit i = true := by
  rw [Nat.and_two_pow]
  cases h : a.testBit i <;> simp [h]

theorem land_shl_ne_zero (m : ℤ) (i : ℕ) :
    Int.land m ((1 : ℤ) <<< ((i : ℕ) : ℤ)) ≠ 0 ↔ m.testBit i = true := by
  rw [shl_one]
  cases m with
  | ofNat a =>
    show ((a &&& 2 ^ i : ℕ) : ℤ) ≠ 0 ↔ a.testBit i = true
    rw [← nat_land_two_pow_ne_zero]
    simp
  | negSucc a =>
    show ((Nat.ldiff (2 ^ i) a : ℕ) : ℤ) ≠ 0 ↔ (!a.testBit i) = true
    rw [Ne, Int.natCast_eq_zero, ← Ne, nat_ldiff_two_pow_ne_zero]
    simp

theorem int_testBit_iff (m : ℤ) (i : ℕ) : m.testBit i = true ↔ m / 2 ^ i % 2 = 1 := by
  cases m with
  | ofNat a =>
    show a.testBit i = true ↔ _
    rw [Nat.testBit_to_div_mod]
    simp only [decide_eq_true_eq, Int.ofNat_eq_coe]
    constructor
    · intro h
      have : (((a / 2 ^ i % 2 : ℕ)) : ℤ) = 1 := by rw [h]; rfl
      push_cast at this
      exact this
    · intro h
      have : (((a / 2 ^ i % 2 : ℕ)) : ℤ) = 1 := by push_cast; exact h
      exact_mod_cast this
  | negSucc a =>
    show (!a.testBit i) = true ↔ _
    rw [Nat.testBit_to_div_mod]
    have hpos : (0 : ℤ) < 2 ^ i := by positivity
    rw [Int.negSucc_ediv _ hpos]
    have e : ((a : ℤ).ediv (2 ^ i)) = (((a / 2 ^ i : ℕ)) : ℤ) := by
      show (a : ℤ) / 2 ^ i = _
      push_cast
      rfl
    rw [e]
    simp only [Bool.not_eq_true', decide_eq_false_iff_not]
    omega


theorem low_bits_mod (m : ℤ) (i : ℕ) (hi : i < 12) :
    (m % 4096) / 2 ^ i % 2 = m / 2 ^ i % 2 := by
  interval_cases i <;> norm_num <;> omega

/-- The value `set_key` stores for degree `i`. -/
theorem key_value_eq (m : ℤ) (i : Fin 12) :
    (if Int.land m ((1 : ℤ) <<< ((i : ℕ) : ℤ)) ≠ 0 then F32.lit 1 else F32.lit 0) =
      if m / 2 ^ (i : ℕ) % 2 = 1 then F32.lit 1 else F32.lit 0 := by
  have h := (land_shl_ne_zero m i).trans (int_testBit_iff m i)
  by_cases c : m / 2 ^ (i : ℕ) % 2 = 1
  · rw [if_pos c, if_pos (h.mpr c)]
  · rw [if_neg c, if_neg (fun hc => c (h.mp hc))]

theorem set_key_foldl (note_mask : ℤ) (l : List (Fin 12)) (st : State) :
    l.foldl
      (fun (s : State) (i : Fin 12) =>
        let v := if Int.land note_mask ((1 : ℤ) <<< ((i : ℕ) : ℤ)) ≠ 0 then F32.lit 1
          else F32.lit 0
        { s with key_scale := Function.update s.key_scale i v })
      st =
    { st with key_scale := fun i =>
        if i ∈ l then (if note_mask / 2 ^ (i : ℕ) % 2 = 1 then F32.lit 1 else F32.lit 0)
        else st.key_scale i } := by
  induction l generalizing st with
  | nil => simp
  | cons a l ih =>
    rw [List.foldl_cons, ih]
    simp only [State.mk.injEq, true_and]
    funext i
    by_cases c1 : i ∈ l
    · simp [c1]
    · by_cases c2 : i = a
      · subst c2
        have hv := key_value_eq note_mask i
        simp only [ne_eq] at hv
        simp [c1, hv]
      · simp [c1, c2, Function.update_noteq c2]

/-- Closed form of `set_key`: only `key_scale` changes, and degree `i` gets `1.0f` exactly when
bit `i` of the mask is set. -/
theorem set_key_eq (st : State) (note_mask : ℤ) :
    set_key st note_mask =
      { st with key_scale := fun i =>
          if note_mask / 2 ^ (i : ℕ) % 2 = 1 then F32.lit 1 else F32.lit 0 } := by
  unfold set_key
  rw [set_key_foldl]
  simp [List.mem_finRange]

theorem lit_one_ne_lit_zero : F32.lit 1 ≠ F32.lit 0 := by
  rw [lit_one, lit_zero]
  intro h
  injection h with h
  norm_num at h

/-- C4. After `set_key(note_mask)`, degree `i` of the scale mask is enabled (`1.0f`) if and
only if bit `i` of `note_mask` is set, and disabled (`0.0f`) otherwise, for every `i` in
`0..11`; bits above bit 11 have no effect: `set_key(m)` and `set_key(m mod 4096)` leave the
same state. -/
theorem set_key_low_twelve_bits (st : State) (note_mask : ℤ) :
    (∀ i : Fin 12,
      ((set_key st note_mask).key_scale i = F32.lit 1 ↔ note_mask / 2 ^ (i : ℕ) % 2 = 1) ∧
      ((set_key st note_mask).key_scale i = F32.lit 0 ↔ note_mask / 2 ^ (i : ℕ) % 2 = 0)) ∧
    set_key st note_mask = set_key st (note_mask % 4096) := by
  constructor
  · intro i
    rw [set_key_eq]
    simp only
    by_cases c : note_mask / 2 ^ (i : ℕ) % 2 = 1
    · rw [if_pos c]
      exact ⟨⟨fun _ => c, fun _ => rfl⟩, ⟨fun h => absurd h lit_one_ne_lit_zero, fun h => by omega⟩⟩
    · rw [if_neg c]
      exact ⟨⟨fun h => absurd h.symm lit_one_ne_lit_zero, fun h => absurd h c⟩,
        ⟨fun _ => by omega, fun _ => rfl⟩⟩
  · rw [set_key_eq, set_key_eq]
    simp only [State.mk.injEq, true_and]
    funext i
    rw [low_bits_mod note_mask i i.isLt]

/-- C5. `reset_state` sets all 2048 lookback-buffer samples to `0` and the write cursor to
`0`, and leaves `phase`, `current_pitch`, `target_pitch`, `envelope` and the scale mask as
they were. -/
theorem reset_state_zeroes_buffer_only (st : State) :
    (∀ i : Fin 2048, (reset_state st).circular_buffer i = F32.fin 0) ∧
    (reset_state st).write_ptr = 0 ∧
    (reset_state st).phase = st.phase ∧
    (reset_state st).current_pitch = st.current_pitch ∧
    (reset_state st).target_pitch = st.target_pitch ∧
    (reset_state st).envelope = st.envelope ∧
    (reset_state st).key_scale = st.key_scale := by
  refine ⟨fun i => ?_, rfl, rfl, rfl, rfl, rfl, rfl⟩
  show F32.lit 0 = F32.fin 0
  exact lit_zero


/-! ## Concrete evaluations -/

theorem round32_10 : round32 10 = F32.fin 10 := by
  apply round32_eq_of_near 10 10 3 10485760 <;> norm_num

theorem round32_11 : round32 11 = F32.fin 11 := by
  apply round32_eq_of_near 11 11 3 11534336 <;> norm_num

theorem cube_10 : F32.fin 10 * F32.fin 10 * F32.fin 10 = F32.fin 1000 := by
  have e1 : round32 (10 * 10) = F32.fin 100 := by
    apply round32_eq_of_near _ _ 6 13107200 <;> norm_num
  have e2 : round32 (100 * 10) = F32.fin 1000 := by
    apply round32_eq_of_near _ _ 9 16384000 <;> norm_num
  rw [fin_mul_fin, e1, fin_mul_fin, e2]

theorem cube_11 : F32.fin 11 * F32.fin 11 * F32.fin 11 = F32.fin 1331 := by
  have e1 : round32 (11 * 11) = F32.fin 121 := by
    apply round32_eq_of_near _ _ 6 15859712 <;> norm_num
  have e2 : round32 (121 * 11) = F32.fin 1331 := by
    apply round32_eq_of_near _ _ 10 10903552 <;> norm_num
  rw [fin_mul_fin, e1, fin_mul_fin, e2]

theorem shape_scalar_10 : shape_scalar (F32.fin 10) = F32.fin (-10594987 / 32768) := by
  have e3 : round32 (1000 / 3) = F32.fin (10922667 / 32768) := by
    apply round32_eq_of_near _ _ 8 10922667 <;> norm_num
  have e4 : round32 (10 - 10922667 / 32768) = F32.fin (-10594987 / 32768) := by
    apply round32_eq_of_near _ _ 8 (-10594987) <;> norm_num
  unfold shape_scalar
  rw [cube_10, lit_three, fin_div_fin _ _ (by norm_num), e3, fin_sub_fin, e4]

theorem shape_simd_10 : shape_simd (F32.fin 10) = F32.fin (-10594987 / 32768) := by
  have e3 : round32 (1000 * (11184811 / 33554432)) = F32.fin (10922667 / 32768) := by
    apply round32_eq_of_near _ _ 8 10922667 <;> norm_num
  have e4 : round32 (10 - 10922667 / 32768) = F32.fin (-10594987 / 32768) := by
    apply round32_eq_of_near _ _ 8 (-10594987) <;> norm_num
  unfold shape_simd
  simp only
  rw [cube_10, third_eq, fin_mul_fin, e3, fin_sub_fin, e4]

theorem shape_scalar_11 : shape_scalar (F32.fin 11) = F32.fin (-14177621 / 32768) := by
  have e3 : round32 (1331 / 3) = F32.fin (14538069 / 32768) := by
    apply round32_eq_of_near _ _ 8 14538069 <;> norm_num
  have e4 : round32 (11 - 14538069 / 32768) = F32.fin (-14177621 / 32768) := by
    apply round32_eq_of_near _ _ 8 (-14177621) <;> norm_num
  unfold shape_scalar
  rw [cube_11, lit_three, fin_div_fin _ _ (by norm_num), e3, fin_sub_fin, e4]

theorem shape_simd_11 : shape_simd (F32.fin 11) = F32.fin (-7088811 / 16384) := by
  have e3 : round32 (1331 * (11184811 / 33554432)) = F32.fin (7269035 / 16384) := by
    apply round32_eq_of_near _ _ 8 14538070 <;> norm_num
  have e4 : round32 (11 - 7269035 / 16384) = F32.fin (-7088811 / 16384) := by
    apply round32_eq_of_near _ _ 8 (-14177622) <;> norm_num
  unfold shape_simd
  simp only
  rw [cube_11, third_eq, fin_mul_fin, e3, fin_sub_fin, e4]


/-! ## The saturation stage -/

/-- C1, as stated, fails.  On the representable sample `10` both the four-at-a-time path
(indices `0..3`) and the cleanup path (index `4`) store `-10594987/32768`, which is more than
`1e-6` away from `10 - 10^3/3`. -/
theorem shaping_tolerance_counterexample :
    F32.Representable (F32.fin 10) ∧
    process_frame State.init
        [F32.fin 10, F32.fin 10, F32.fin 10, F32.fin 10, F32.fin 10]
        [F32.fin 0, F32.fin 0, F32.fin 0, F32.fin 0, F32.fin 0] 5 (F32.fin 1) (F32.fin 1) =
      some (State.init,
        [F32.fin (-10594987 / 32768), F32.fin (-10594987 / 32768), F32.fin (-10594987 / 32768),
         F32.fin (-10594987 / 32768), F32.fin (-10594987 / 32768)]) ∧
    ¬ |(-10594987 / 32768 : ℚ) - (10 - 10 ^ 3 / 3)| ≤ 1 / 1000000 := by
  refine ⟨round32_10, ?_, ?_⟩
  · have h := process_frame_eq State.init
      [F32.fin 10, F32.fin 10, F32.fin 10, F32.fin 10, F32.fin 10]
      [F32.fin 0, F32.fin 0, F32.fin 0, F32.fin 0, F32.fin 0] 5 (F32.fin 1) (F32.fin 1) rfl rfl
    rw [show ((5 : ℕ) : ℤ) = 5 from rfl] at h
    rw [h]
    simp [shaped, shape_simd_10, shape_scalar_10]
  · rw [abs_le]
    norm_num

/-- C1, amended.  For every block of `N` samples of magnitude at most `1`, every amount and
speed, `process_frame` returns and stores at every index `i < N` the value of the
four-at-a-time formula (`i < N - N % 4`) or of the cleanup formula (otherwise) at
`x = input[i]`, and on either path that value is within `1e-6` of `x - x^3/3`. -/
theorem process_frame_shapes_normalised (st : State) (input output : List F32) (N : ℕ)
    (amount speed : F32) (hi : input.length = N) (ho : output.length = N)
    (hx : ∀ x ∈ input, ∃ q : ℚ, x = F32.fin q ∧ |q| ≤ 1) :
    ∃ out, process_frame st input output (N : ℤ) amount speed = some (st, out) ∧
      out.length = N ∧
      ∀ i, i < N → ∃ q r : ℚ, input[i]? = some (F32.fin q) ∧ out[i]? = some (F32.fin r) ∧
        F32.fin r = (if i < N - N % 4 then shape_simd (F32.fin q) else shape_scalar (F32.fin q)) ∧
        |r - (q - q ^ 3 / 3)| ≤ 1 / 1000000 := by
  refine ⟨shaped input, process_frame_eq st input output N amount speed hi ho, ?_, ?_⟩
  · rw [shaped_length, hi]
  · intro i hiN
    have hlt : i < input.length := by omega
    obtain ⟨q, hq, hq1⟩ := hx input[i] (List.getElem_mem hlt)
    have hget : input[i]? = some (F32.fin q) := by
      rw [List.getElem?_eq_getElem hlt, hq]
    rw [shaped_getElem?, hget]
    rw [hi]
    by_cases c : i < N - N % 4
    · obtain ⟨r, hr, hr1⟩ := shape_simd_near q hq1
      refine ⟨q, r, rfl, ?_, ?_, le_trans hr1 (by norm_num)⟩
      · rw [if_pos c, Option.map_some', hr]
      · rw [if_pos c, hr]
    · obtain ⟨r, hr, hr1⟩ := shape_scalar_near q hq1
      refine ⟨q, r, rfl, ?_, ?_, le_trans hr1 (by norm_num)⟩
      · rw [if_neg c, Option.map_some', hr]
      · rw [if_neg c, hr]

theorem process_frame_shapes_normalised_witness :
    ∃ out, process_frame State.init
        [F32.fin (1 / 2), F32.fin 1, F32.fin 0, F32.fin (-1), F32.fin (1 / 4)]
        [F32.fin 0, F32.fin 0, F32.fin 0, F32.fin 0, F32.fin 0] ((5 : ℕ) : ℤ)
        (F32.fin 1) (F32.fin 1) = some (State.init, out) ∧
      out.length = 5 ∧
      ∀ i, i < 5 → ∃ q r : ℚ,
        [F32.fin (1 / 2), F32.fin 1, F32.fin 0, F32.fin (-1), F32.fin (1 / 4)][i]? =
          some (F32.fin q) ∧
        out[i]? = some (F32.fin r) ∧
        F32.fin r = (if i < 5 - 5 % 4 then shape_simd (F32.fin q) else shape_scalar (F32.fin q)) ∧
        |r - (q - q ^ 3 / 3)| ≤ 1 / 1000000 :=
  process_frame_shapes_normalised State.init
    [F32.fin (1 / 2), F32.fin 1, F32.fin 0, F32.fin (-1), F32.fin (1 / 4)]
    [F32.fin 0, F32.fin 0, F32.fin 0, F32.fin 0, F32.fin 0] 5 (F32.fin 1) (F32.fin 1) rfl rfl
    (by
      intro x hx
      simp only [List.mem_cons, List.mem_singleton, List.not_mem_nil, or_false] at hx
      rcases hx with rfl | rfl | rfl | rfl | rfl
      · exact ⟨_, rfl, by rw [abs_le]; norm_num⟩
      · exact ⟨_, rfl, by rw [abs_le]; norm_num⟩
      · exact ⟨_, rfl, by rw [abs_le]; norm_num⟩
      · exact ⟨_, rfl, by rw [abs_le]; norm_num⟩
      · exact ⟨_, rfl, by rw [abs_le]; norm_num⟩)

/-- C9, as stated, fails.  On the representable sample `11` the four-at-a-time formula gives
`-7088811/16384` and the cleanup formula gives `-14177621/32768`; they differ by `2^-15`,
more than `1e-6`. -/
theorem paths_disagree_counterexample :
    F32.Representable (F32.fin 11) ∧
    shape_simd (F32.fin 11) = F32.fin (-7088811 / 16384) ∧
    shape_scalar (F32.fin 11) = F32.fin (-14177621 / 32768) ∧
    ¬ |(-7088811 / 16384 : ℚ) - (-14177621 / 32768)| ≤ 1 / 1000000 := by
  refine ⟨round32_11, shape_simd_11, shape_scalar_11, ?_⟩
  rw [abs_le]
  norm_num

/-- C9, amended.  For every sample value `x` with `|x| ≤ 1`, the value the four-at-a-time
path computes for `x` and the value the cleanup path computes for `x` agree within `1e-6`. -/
theorem paths_agree_normalised (q : ℚ) (h : |q| ≤ 1) :
    ∃ a b : ℚ, shape_simd (F32.fin q) = F32.fin a ∧ shape_scalar (F32.fin q) = F32.fin b ∧
      |a - b| ≤ 1 / 1000000 := by
  obtain ⟨a, ha, ha1⟩ := shape_simd_near q h
  obtain ⟨b, hb, hb1⟩ := shape_scalar_near q h
  refine ⟨a, b, ha, hb, ?_⟩
  have ha' := abs_le.mp ha1
  have hb' := abs_le.mp hb1
  rw [abs_le]
  constructor <;> linarith

theorem paths_agree_normalised_witness :
    |(1 / 2 : ℚ)| ≤ 1 ∧
    ∃ a b : ℚ, shape_simd (F32.fin (1 / 2)) = F32.fin a ∧
      shape_scalar (F32.fin (1 / 2)) = F32.fin b ∧ |a - b| ≤ 1 / 1000000 :=
  ⟨by rw [abs_le]; norm_num, paths_agree_normalised (1 / 2) (by rw [abs_le]; norm_num)⟩

/-- C6. For every declared length `N` and buffers of `N` samples, no read of `input` (in
`get_pitch` at `i` and `i + tau`, in the shaping loops at `i..i+3`) and no write of `output`
falls outside `[0, N)`: `get_pitch` and `process_frame` return a value, the out-of-bounds
branch of `readAt` and `writeAt` is not reached. -/
theorem process_frame_in_bounds (st : State) (input output : List F32) (N : ℕ)
    (amount speed : F32) (hi : input.length = N) (ho : output.length = N) :
    (get_pitch input (N : ℤ)).isSome = true ∧
    (process_frame st input output (N : ℤ) amount speed).isSome = true := by
  obtain ⟨p, hp⟩ := get_pitch_some input N hi
  rw [hp, process_frame_eq st input output N amount speed hi ho]
  exact ⟨rfl, rfl⟩

theorem process_frame_in_bounds_witness :
    (get_pitch lag600Block ((601 : ℕ) : ℤ)).isSome = true ∧
    (process_frame State.init lag600Block (List.replicate 601 (F32.fin 0)) ((601 : ℕ) : ℤ)
      (F32.fin 1) (F32.fin 1)).isSome = true :=
  process_frame_in_bounds State.init lag600Block (List.replicate 601 (F32.fin 0)) 601
    (F32.fin 1) (F32.fin 1)
    (by rw [lag600Block, List.length_cons, List.length_append, List.length_replicate,
      List.length_singleton])
    (List.length_replicate _ _)

theorem shape_simd_zero : shape_simd (F32.fin 0) = F32.fin 0 := by
  unfold shape_simd
  simp only
  rw [third_eq, fin_mul_fin, mul_zero, round32_zero, fin_mul_fin, mul_zero, round32_zero,
    fin_mul_fin, zero_mul, round32_zero, fin_sub_fin, sub_zero, round32_zero]

theorem shape_scalar_zero : shape_scalar (F32.fin 0) = F32.fin 0 := by
  unfold shape_scalar
  rw [lit_three, fin_mul_fin, mul_zero, round32_zero, fin_mul_fin, mul_zero, round32_zero,
    fin_div_fin _ _ (by norm_num), zero_div, round32_zero, fin_sub_fin, sub_zero, round32_zero]

/-- C7. For every length `N`, every amount and every speed, `process_frame` on a block of `N`
zeros produces a block of `N` zeros. -/
theorem process_frame_silence (st : State) (output : List F32) (N : ℕ) (amount speed : F32)
    (ho : output.length = N) :
    process_frame st (List.replicate N (F32.fin 0)) output (N : ℤ) amount speed =
      some (st, List.replicate N (F32.fin 0)) := by
  rw [process_frame_eq st _ output N amount speed (List.length_replicate _ _) ho]
  have : shaped (List.replicate N (F32.fin 0)) = List.replicate N (F32.fin 0) := by
    apply List.ext_getElem?
    intro j
    rw [shaped_getElem?]
    by_cases c : j < N
    · have e : (List.replicate N (F32.fin 0))[j]? = some (F32.fin 0) := by
        rw [List.getElem?_eq_getElem (by simpa using c)]
        simp
      rw [e]
      split_ifs
      · rw [Option.map_some', shape_simd_zero]
      · rw [Option.map_some', shape_scalar_zero]
    · have e : (List.replicate N (F32.fin 0))[j]? = none :=
        List.getElem?_eq_none (by simpa using c)
      rw [e]
      split_ifs <;> rfl
  rw [this]

theorem process_frame_silence_witness :
    process_frame State.init (List.replicate 6 (F32.fin 0))
      [F32.fin 5, F32.fin 5, F32.fin 5, F32.fin 5, F32.fin 5, F32.fin 5] ((6 : ℕ) : ℤ)
      (F32.fin 1) (F32.fin 1) = some (State.init, List.replicate 6 (F32.fin 0)) :=
  process_frame_silence State.init
    [F32.fin 5, F32.fin 5, F32.fin 5, F32.fin 5, F32.fin 5, F32.fin 5] 6 (F32.fin 1) (F32.fin 1) rfl


/-! ## The pitch estimator -/

theorem get_pitch_diff_one (buffer : List F32) (tau : ℤ) :
    get_pitch_diff buffer 601 tau = (do
      let a ← readAt buffer 0
      let b ← readAt buffer (0 + tau)
      pure ((0 : F32) + (a - b) * (a - b))) := by
  unfold get_pitch_diff
  have : ((601 : ℤ) - MAX_LAG).toNat = 1 := by unfold MAX_LAG; omega
  rw [this]
  simp [List.range_succ]

theorem sentinelBlock_diff (tau : ℤ) (h1 : 1 ≤ tau) (h2 : tau ≤ 600) :
    get_pitch_diff sentinelBlock 601 tau = some (F32.fin 1000000) := by
  have r0 : readAt sentinelBlock 0 = some (F32.fin 1000) := by
    rw [readAt_eq sentinelBlock 0 0 rfl]
    unfold sentinelBlock
    rw [List.getElem?_cons_zero]
  have r1 : readAt sentinelBlock (0 + tau) = some (F32.fin 0) := by
    rw [readAt_eq sentinelBlock (0 + tau) ((tau.toNat - 1) + 1) (by omega)]
    unfold sentinelBlock
    rw [List.getElem?_cons_succ, List.getElem?_replicate]
    rw [if_pos (by omega)]
  have e1 : round32 (1000 - 0) = F32.fin 1000 := by
    apply round32_eq_of_near _ _ 9 16384000 <;> norm_num
  have e2 : round32 (1000 * 1000) = F32.fin 1000000 := by
    apply round32_eq_of_near _ _ 19 16000000 <;> norm_num
  have e3 : round32 (0 + 1000000) = F32.fin 1000000 := by
    apply round32_eq_of_near _ _ 19 16000000 <;> norm_num
  rw [get_pitch_diff_one, r0, r1]
  simp only [Option.bind_eq_bind, Option.some_bind]
  rw [ofNat_zero, fin_sub_fin, e1, fin_mul_fin, e2, fin_add_fin, e3]
  rfl

theorem lag600Block_diff (tau : ℤ) (h1 : 1 ≤ tau) (h2 : tau < 600) :
    get_pitch_diff lag600Block 601 tau = some (F32.fin 1) := by
  have r0 : readAt lag600Block 0 = some (F32.fin 1) := by
    rw [readAt_eq lag600Block 0 0 rfl]
    unfold lag600Block
    rw [List.getElem?_cons_zero]
  have r1 : readAt lag600Block (0 + tau) = some (F32.fin 0) := by
    rw [readAt_eq lag600Block (0 + tau) ((tau.toNat - 1) + 1) (by omega)]
    unfold lag600Block
    rw [List.getElem?_cons_succ,
      List.getElem?_append_left (by rw [List.length_replicate]; omega),
      List.getElem?_replicate]
    rw [if_pos (by omega)]
  have e1 : round32 (1 - 0) = F32.fin 1 := by
    apply round32_eq_of_near _ _ 0 8388608 <;> norm_num
  have e2 : round32 (1 * 1) = F32.fin 1 := by
    apply round32_eq_of_near _ _ 0 8388608 <;> norm_num
  have e3 : round32 (0 + 1) = F32.fin 1 := by
    apply round32_eq_of_near _ _ 0 8388608 <;> norm_num
  rw [get_pitch_diff_one, r0, r1]
  simp only [Option.bind_eq_bind, Option.some_bind]
  rw [ofNat_zero, fin_sub_fin, e1, fin_mul_fin, e2, fin_add_fin, e3]
  rfl

theorem lag600Block_diff_600 : get_pitch_diff lag600Block 601 600 = some (F32.fin 0) := by
  have r0 : readAt lag600Block 0 = some (F32.fin 1) := by
    rw [readAt_eq lag600Block 0 0 rfl]
    unfold lag600Block
    rw [List.getElem?_cons_zero]
  have r1 : readAt lag600Block (0 + 600) = some (F32.fin 1) := by
    rw [readAt_eq lag600Block (0 + 600) (599 + 1) (by norm_num)]
    unfold lag600Block
    rw [List.getElem?_cons_succ,
      List.getElem?_append_right (by rw [List.length_replicate])]
    simp only [List.length_replicate, Nat.sub_self, List.getElem?_cons_zero]
  rw [get_pitch_diff_one, r0, r1]
  simp only [Option.bind_eq_bind, Option.some_bind]
  rw [ofNat_zero, fin_sub_fin, sub_self, round32_zero, fin_mul_fin, mul_zero, round32_zero,
    fin_add_fin, add_zero, round32_zero]
  rfl

theorem ofInt_20 : F32.ofInt 20 = F32.fin 20 := by
  apply round32_eq_of_near _ _ 4 10485760 <;> norm_num

theorem ofInt_600 : F32.ofInt 600 = F32.fin 600 := by
  apply round32_eq_of_near _ _ 9 9830400 <;> norm_num

/-- The value returned when lag 20 is selected: `44100 / 20 = 2205`. -/
theorem pitch_of_lag_20 : F32.ofInt SAMPLE_RATE / F32.ofInt 20 = F32.fin 2205 := by
  rw [ofInt_sample_rate, ofInt_20, fin_div_fin _ _ (by norm_num)]
  apply round32_eq_of_near _ _ 11 9031680 <;> norm_num

theorem pitch_of_lag_600 : F32.ofInt SAMPLE_RATE / F32.ofInt 600 = F32.fin (147 / 2) := by
  rw [ofInt_sample_rate, ofInt_600, fin_div_fin _ _ (by norm_num)]
  apply round32_eq_of_near _ _ 6 9633792 <;> norm_num

/-- When every scanned lag has the same sum below the initial `min_diff`, lag 20 wins. -/
theorem get_pitch_of_const_diff (buffer : List F32) (len : ℤ) (c : ℚ) (hc : c < 1000000)
    (hD : ∀ tau : ℤ, 20 ≤ tau → tau < 600 → get_pitch_diff buffer len tau = some (F32.fin c)) :
    get_pitch buffer len = some (F32.fin 2205) := by
  rcases get_pitch_of_diffs buffer len (fun _ => F32.fin c) hD with
    ⟨_, hall⟩ | ⟨best, hb1, hb2, hres, _, _, hfirst⟩
  · exfalso
    apply hall 20 (by norm_num) (by norm_num)
    rw [lit_sentinel, fin_lt_fin]
    exact hc
  · have hbest : best = 20 := by
      by_contra hne
      rcases hfirst 20 (by norm_num) (by omega) with h | h
      · exact f32_lt_irrefl _ h
      · exact F32.noConfusion h
    rw [hres, hbest, pitch_of_lag_20]

/-- With at most `MAX_LAG` samples the overlap region is empty and the result is `2205`. -/
theorem get_pitch_short (buffer : List F32) (len : ℤ) (h : len ≤ 600) :
    get_pitch buffer len = some (F32.fin 2205) :=
  get_pitch_of_const_diff buffer len 0 (by norm_num)
    (fun tau _ _ => get_pitch_diff_short buffer len tau h)

/-- C2, as stated, fails, in two ways.  On `sentinelBlock` every lag in `[20, 600]` has the
sum `1000000`, the smallest minimising lag is 20 and `44100 / 20 = 2205`, but `get_pitch`
returns `0`.  On `lag600Block` lag 600 has the sum `0` and every lag in `[20, 599]` has the sum
`1`, so the minimising lag is 600 and `44100 / 600 = 73.5`, but `get_pitch` returns `2205`. -/
theorem get_pitch_argmin_counterexample :
    ((∀ tau : ℤ, 20 ≤ tau → tau ≤ 600 →
        get_pitch_diff sentinelBlock 601 tau = some (F32.fin 1000000)) ∧
      F32.ofInt SAMPLE_RATE / F32.ofInt 20 = F32.fin 2205 ∧
      get_pitch sentinelBlock 601 = some (F32.fin 0)) ∧
    ((∀ tau : ℤ, 20 ≤ tau → tau < 600 →
        get_pitch_diff lag600Block 601 tau = some (F32.fin 1)) ∧
      get_pitch_diff lag600Block 601 600 = some (F32.fin 0) ∧
      F32.ofInt SAMPLE_RATE / F32.ofInt 600 = F32.fin (147 / 2) ∧
      get_pitch lag600Block 601 = some (F32.fin 2205)) := by
  refine ⟨⟨fun tau h1 h2 => sentinelBlock_diff tau (by omega) h2, pitch_of_lag_20, ?_⟩,
    ⟨fun tau h1 h2 => lag600Block_diff tau (by omega) h2, lag600Block_diff_600,
      pitch_of_lag_600, ?_⟩⟩
  · rcases get_pitch_of_diffs sentinelBlock 601 (fun _ => F32.fin 1000000)
        (fun tau h1 h2 => sentinelBlock_diff tau (by omega) (by omega)) with
      ⟨hres, _⟩ | ⟨best, _, _, _, hlt, _, _⟩
    · rw [hres, lit_zero]
    · exfalso
      rw [lit_sentinel] at hlt
      exact f32_lt_irrefl _ hlt
  · exact get_pitch_of_const_diff lag600Block 601 1 (by norm_num)
      (fun tau h1 h2 => lag600Block_diff tau (by omega) h2)

/-- The inner loop of `get_pitch` computes `diffSum` over the overlap region `[0, N - 600)`. -/
theorem get_pitch_diff_eq_diffSum (buffer : List F32) (N tau : ℕ) (h : buffer.length = N)
    (h1 : tau < 600) :
    get_pitch_diff buffer (N : ℤ) (tau : ℤ) = some (diffSum buffer (N - 600) tau) := by
  have hn : ((N : ℤ) - MAX_LAG).toNat = N - 600 := by
    unfold MAX_LAG
    omega
  obtain ⟨d, hd, hI⟩ := foldlM_range_inv
    (fun (diff : F32) (i : ℕ) => do
      let a ← readAt buffer (i : ℤ)
      let b ← readAt buffer ((i : ℤ) + (tau : ℤ))
      let delta := a - b
      pure (diff + delta * delta))
    (fun k d => d = diffSum buffer k tau) (N - 600) (0 : F32)
    (by
      show (0 : F32) = diffSum buffer 0 tau
      rw [ofNat_zero]
      rfl)
    (by
      intro k b hk hI
      have ha : k < buffer.length := by omega
      have hb : k + tau < buffer.length := by omega
      dsimp only
      rw [readAt_eq buffer (k : ℤ) k rfl, List.getElem?_eq_getElem ha,
        readAt_eq buffer ((k : ℤ) + (tau : ℤ)) (k + tau) (by push_cast; ring),
        List.getElem?_eq_getElem hb]
      refine ⟨_, rfl, ?_⟩
      unfold diffSum
      rw [List.range_succ, List.foldl_append, List.foldl_cons, List.foldl_nil]
      have e1 : buffer.getD k (F32.fin 0) = buffer[k] := by
        rw [List.getD_eq_getElem?_getD, List.getElem?_eq_getElem ha]
        rfl
      have e2 : buffer.getD (k + tau) (F32.fin 0) = buffer[k + tau] := by
        rw [List.getD_eq_getElem?_getD, List.getElem?_eq_getElem hb]
        rfl
      rw [e1, e2, hI]
      rfl)
  unfold get_pitch_diff
  rw [hn, hd, hI]

/-- C2, amended.  For every block of `N` samples, with the sum of lag `tau` being
`diffSum block (N - 600) tau`, the binary32 sum over `i` in `[0, N - 600)` of
`(block[i] - block[i + tau])^2`: `get_pitch` returns `0` when no lag in `[20, 599]` has a sum
below the initial `min_diff` `1000000`; otherwise it returns `44100 / best` (one binary32
division), where `best` is the lag in `[20, 599]` whose sum no other scanned lag is below, and
the smallest such lag: every earlier lag has a strictly larger sum (or a NaN sum). -/
theorem get_pitch_selects_lag (buffer : List F32) (N : ℕ) (h : buffer.length = N) :
    (get_pitch buffer (N : ℤ) = some (F32.fin 0) ∧
      ∀ t : ℕ, 20 ≤ t → t < 600 → ¬ diffSum buffer (N - 600) t < F32.fin 1000000) ∨
    (∃ best : ℕ, 20 ≤ best ∧ best < 600 ∧
      get_pitch buffer (N : ℤ) = some (F32.ofInt SAMPLE_RATE / F32.ofInt (best : ℤ)) ∧
      diffSum buffer (N - 600) best < F32.fin 1000000 ∧
      (∀ t : ℕ, 20 ≤ t → t < 600 →
        ¬ diffSum buffer (N - 600) t < diffSum buffer (N - 600) best) ∧
      (∀ t : ℕ, 20 ≤ t → t < best →
        diffSum buffer (N - 600) best < diffSum buffer (N - 600) t ∨
        diffSum buffer (N - 600) t = F32.nan)) := by
  have hD : ∀ tau : ℤ, 20 ≤ tau → tau < 600 →
      get_pitch_diff buffer (N : ℤ) tau = some (diffSum buffer (N - 600) tau.toNat) := by
    intro tau h1 h2
    have := get_pitch_diff_eq_diffSum buffer N tau.toNat h (by omega)
    rw [Int.toNat_of_nonneg (by omega)] at this
    exact this
  have := get_pitch_of_diffs buffer (N : ℤ) (fun tau => diffSum buffer (N - 600) tau.toNat) hD
  rw [lit_sentinel, lit_zero] at this
  rcases this with ⟨hres, hall⟩ | ⟨best, hb1, hb2, hres, hlt, hmin, hfirst⟩
  · left
    refine ⟨hres, ?_⟩
    intro t h1 h2
    have := hall (t : ℤ) (by omega) (by omega)
    simpa using this
  · right
    refine ⟨best.toNat, by omega, by omega, ?_, hlt, ?_, ?_⟩
    · rw [Int.toNat_of_nonneg (by omega)]
      exact hres
    · intro t h1 h2
      have := hmin (t : ℤ) (by omega) (by omega)
      simpa using this
    · intro t h1 h2
      have := hfirst (t : ℤ) (by omega) (by omega)
      simpa using this

theorem get_pitch_selects_lag_witness :
    (get_pitch lag600Block ((601 : ℕ) : ℤ) = some (F32.fin 0) ∧
      ∀ t : ℕ, 20 ≤ t → t < 600 → ¬ diffSum lag600Block (601 - 600) t < F32.fin 1000000) ∨
    (∃ best : ℕ, 20 ≤ best ∧ best < 600 ∧
      get_pitch lag600Block ((601 : ℕ) : ℤ) =
        some (F32.ofInt SAMPLE_RATE / F32.ofInt (best : ℤ)) ∧
      diffSum lag600Block (601 - 600) best < F32.fin 1000000 ∧
      (∀ t : ℕ, 20 ≤ t → t < 600 →
        ¬ diffSum lag600Block (601 - 600) t < diffSum lag600Block (601 - 600) best) ∧
      (∀ t : ℕ, 20 ≤ t → t < best →
        diffSum lag600Block (601 - 600) best < diffSum lag600Block (601 - 600) t ∨
        diffSum lag600Block (601 - 600) t = F32.nan)) :=
  get_pitch_selects_lag lag600Block 601
    (by rw [lag600Block, List.length_cons, List.length_append, List.length_replicate,
      List.length_singleton])

/-- C8 fails on the code.  For the configured block size `BUFFER_SIZE = 512`, whatever the 512
samples are (in particular the samples of a 440 Hz sine), `get_pitch` returns `2205`, and
`|2205 - 440|` exceeds `440^2 / 44100`. -/
theorem get_pitch_block_size_512 (buffer : List F32) :
    get_pitch buffer BUFFER_SIZE = some (F32.fin 2205) ∧
    ¬ |(2205 : ℚ) - 440| ≤ 440 ^ 2 / 44100 := by
  refine ⟨get_pitch_short buffer BUFFER_SIZE (by unfold BUFFER_SIZE; norm_num), ?_⟩
  rw [abs_le]
  norm_num

/-! ## The scale snapper -/

theorem snap_frequency_eq (log2f : F32 → F32) (input_freq : F32) :
    snap_frequency log2f input_freq = input_freq := by
  unfold snap_frequency
  split_ifs <;> rfl

theorem lit_293_66 : F32.lit 293.66 = F32.fin (9622651 / 32768) := by
  apply round32_eq_of_near _ _ 8 9622651 <;> norm_num

theorem lit_261_63 : F32.lit 261.63 = F32.fin (2143273 / 8192) := by
  apply round32_eq_of_near _ _ 8 8573092 <;> norm_num

/-- C3 fails on the code.  After `set_key(0b000000000001)` degree 0 is enabled and degree 2
is disabled, `293.66f` lies in `[80, 1200]`, and `snap_frequency(293.66f)` returns `293.66f`
itself, which is more than 1 Hz (in fact about 32 Hz) away from `261.63f`. -/
theorem snap_frequency_returns_input (log2f : F32 → F32) (st : State) :
    (set_key st 1).key_scale 0 = F32.lit 1 ∧
    (set_key st 1).key_scale 2 = F32.lit 0 ∧
    ¬ (F32.lit 293.66 < F32.lit 80 ∨ F32.lit 1200 < F32.lit 293.66) ∧
    snap_frequency log2f (F32.lit 293.66) = F32.lit 293.66 ∧
    F32.lit 293.66 = F32.fin (9622651 / 32768) ∧
    F32.lit 261.63 = F32.fin (2143273 / 8192) ∧
    ¬ |(9622651 / 32768 : ℚ) - 2143273 / 8192| ≤ 1 := by
  refine ⟨?_, ?_, ?_, snap_frequency_eq _ _, lit_293_66, lit_261_63, ?_⟩
  · rw [set_key_eq]
    simp
  · rw [set_key_eq]
    simp
  · rw [lit_293_66, lit_80, lit_1200, fin_lt_fin, fin_lt_fin]
    norm_num
  · rw [abs_le]
    norm_num

/-- C10. For every frequency `f` with `f < 80` or `f > 1200`, `snap_frequency(f)` returns `f`
unchanged; the function does not read the scale mask. -/
theorem snap_frequency_out_of_range (log2f : F32 → F32) (f : F32)
    (h : f < F32.lit 80 ∨ F32.lit 1200 < f) : snap_frequency log2f f = f := by
  unfold snap_frequency
  rw [if_pos h]

theorem snap_frequency_out_of_range_witness :
    snap_frequency (fun x => x) (F32.fin 50) = F32.fin 50 :=
  snap_frequency_out_of_range (fun x => x) (F32.fin 50)
    (Or.inl (by rw [lit_80, fin_lt_fin]; norm_num))


/-! ## The scale snapper on enabled degrees -/

/-- C11. For every state (scale mask) and every frequency `f` in `[80, 1200]` whose scale
degree `snap_semitone f` is enabled in the mask, `snap_frequency(f) = f`; consequently
`snap(snap(f)) = snap(f)`. -/
theorem snap_frequency_enabled_degree (log2f : F32 → F32) (st : State) (f : F32)
    (hlo : ¬ f < F32.lit 80) (hhi : ¬ F32.lit 1200 < f) (i : Fin 12)
    (_hdeg : ((i : ℕ) : ℤ) = snap_semitone log2f f) (_hen : st.key_scale i = F32.lit 1) :
    snap_frequency log2f f = f ∧
    snap_frequency log2f (snap_frequency log2f f) = snap_frequency log2f f := by
  have h : snap_frequency log2f f = f := by
    unfold snap_frequency
    rw [if_neg (not_or.mpr ⟨hlo, hhi⟩)]
  exact ⟨h, by rw [h, h]⟩

theorem snap_semitone_middle_c : snap_semitone log2_at_one (F32.lit 261.63) = 0 := by
  have e1 : F32.lit 261.63 / F32.lit 261.63 = F32.fin 1 := by
    rw [lit_261_63, fin_div_fin _ _ (by norm_num)]
    apply round32_eq_of_near _ _ 0 8388608 <;> norm_num
  have e2 : F32.lit 12 = F32.fin 12 := by
    apply round32_eq_of_near _ _ 3 12582912 <;> norm_num
  unfold snap_semitone
  simp only
  rw [e1, e2]
  have e3 : log2_at_one (F32.fin 1) = F32.fin 0 := by
    unfold log2_at_one
    rw [if_pos rfl]
  rw [e3, fin_mul_fin, mul_zero, round32_zero]
  have e4 : F32.roundToInt (F32.fin 0) = 0 := by
    show (if (0 : ℚ) ≤ 0 then ⌊(0 : ℚ) + 1 / 2⌋ else -⌊-(0 : ℚ) + 1 / 2⌋) = 0
    rw [if_pos (le_refl _), Int.floor_eq_iff]
    norm_num
  rw [e4]
  rfl

theorem snap_frequency_enabled_degree_witness :
    snap_frequency log2_at_one (F32.lit 261.63) = F32.lit 261.63 ∧
    snap_frequency log2_at_one (snap_frequency log2_at_one (F32.lit 261.63)) =
      snap_frequency log2_at_one (F32.lit 261.63) :=
  snap_frequency_enabled_degree log2_at_one (set_key State.init 1) (F32.lit 261.63)
    (by rw [lit_261_63, lit_80, fin_lt_fin]; norm_num)
    (by rw [lit_261_63, lit_1200, fin_lt_fin]; norm_num)
    0
    (by rw [snap_semitone_middle_c]; rfl)
    (by rw [set_key_eq]; simp)

/-! ## `process_frame` and the state -/

/-- The state argument of `process_frame` only passes through, and `amount` and `speed` are
not used: the returned output block is the same for any two states and settings. -/
theorem process_frame_output_indep (st1 st2 : State) (input output : List F32) (length : ℤ)
    (a1 s1 a2 s2 : F32) :
    (process_frame st1 input output length a1 s1).map Prod.snd =
      (process_frame st2 input output length a2 s2).map Prod.snd := by
  unfold process_frame
  cases get_pitch input length with
  | none => rfl
  | some p =>
    simp only [Option.bind_eq_bind, Option.some_bind]
    cases (List.range ((length - length.tmod 4 + 3) / 4).toNat).foldlM
        (fun out (k : ℕ) => simd_step input out (4 * (k : ℤ))) output with
    | none => rfl
    | some o1 =>
      simp only [Option.some_bind]
      cases (List.range (length - (length - length.tmod 4)).toNat).foldlM
          (fun out (k : ℕ) => scalar_step input out (length - length.tmod 4 + (k : ℤ))) o1 with
      | none => rfl
      | some o2 => rfl

/-- The state that `process_frame` returns is the state it was given. -/
theorem process_frame_state (st st' : State) (input output out : List F32) (length : ℤ)
    (amount speed : F32)
    (h : process_frame st input output length amount speed = some (st', out)) : st' = st := by
  unfold process_frame at h
  cases hp : get_pitch input length with
  | none => rw [hp] at h; exact Option.noConfusion h
  | some p =>
    rw [hp] at h
    simp only [Option.bind_eq_bind, Option.some_bind] at h
    cases h1 : (List.range ((length - length.tmod 4 + 3) / 4).toNat).foldlM
        (fun out (k : ℕ) => simd_step input out (4 * (k : ℤ))) output with
    | none => rw [h1] at h; exact Option.noConfusion h
    | some o1 =>
      rw [h1] at h
      simp only [Option.some_bind] at h
      cases h2 : (List.range (length - (length - length.tmod 4)).toNat).foldlM
          (fun out (k : ℕ) => scalar_step input out (length - length.tmod 4 + (k : ℤ))) o1 with
      | none => rw [h2] at h; exact Option.noConfusion h
      | some o2 =>
        rw [h2] at h
        simp only [Option.some_bind] at h
        have := Option.some.inj h
        exact (congrArg Prod.fst this).symm


/-- C12, as stated, fails.  From the initial state (write cursor `0`), after `process_frame`
on the one-sample block `[1]` the returned state is the initial state again: the lookback
buffer still holds `0` at position `0`, not the sample `1`, and the write cursor is still
`0`, not `(0 + 1) mod 2048 = 1`. -/
theorem lookback_not_written_counterexample :
    process_frame State.init [F32.fin 1] [F32.fin 0] 1 (F32.fin 1) (F32.fin 1) =
      some (State.init, shaped [F32.fin 1]) ∧
    State.init.write_ptr = 0 ∧
    State.init.circular_buffer 0 = F32.fin 0 ∧ F32.fin 0 ≠ F32.fin 1 ∧
    (0 : ℤ) ≠ (0 + 1) % 2048 := by
  have h := process_frame_eq State.init [F32.fin 1] [F32.fin 0] 1 (F32.fin 1) (F32.fin 1) rfl rfl
  refine ⟨h, rfl, lit_zero, ?_, by norm_num⟩
  intro e
  injection e with e
  norm_num at e

/-- C12, amended.  For every state with write cursor `w` and every block of `N` samples,
`process_frame` returns and leaves the lookback buffer and the write cursor (the whole state)
exactly as they were: the block is not stored, the cursor is still `w`, so a cursor in
`[0, 2048)` stays in `[0, 2048)`. -/
theorem process_frame_keeps_state (st : State) (input output : List F32) (N : ℕ)
    (amount speed : F32) (hi : input.length = N) (ho : output.length = N) :
    ∃ st' out, process_frame st input output (N : ℤ) amount speed = some (st', out) ∧
      st' = st ∧ st'.circular_buffer = st.circular_buffer ∧ st'.write_ptr = st.write_ptr ∧
      (0 ≤ st.write_ptr ∧ st.write_ptr < 2048 → 0 ≤ st'.write_ptr ∧ st'.write_ptr < 2048) :=
  ⟨st, shaped input, process_frame_eq st input output N amount speed hi ho, rfl, rfl, rfl,
    fun h => h⟩

theorem process_frame_keeps_state_witness :
    ∃ st' out, process_frame State.init [F32.fin 1, F32.fin (1 / 2)] [F32.fin 0, F32.fin 0]
        ((2 : ℕ) : ℤ) (F32.fin 1) (F32.fin 1) = some (st', out) ∧
      st' = State.init ∧ st'.circular_buffer = State.init.circular_buffer ∧
      st'.write_ptr = State.init.write_ptr ∧
      (0 ≤ State.init.write_ptr ∧ State.init.write_ptr < 2048 →
        0 ≤ st'.write_ptr ∧ st'.write_ptr < 2048) :=
  process_frame_keeps_state State.init [F32.fin 1, F32.fin (1 / 2)] [F32.fin 0, F32.fin 0] 2
    (F32.fin 1) (F32.fin 1) rfl rfl

/-- C13. For every state `s` whose lookback buffer is all zeros, every block and every amount
and speed, the output block of `reset_state` followed by `process_frame` starting from `s`
equals the output block of `process_frame` on the same block starting from the freshly
initialised state. -/
theorem reset_then_process_matches_fresh (s : State) (input output : List F32) (length : ℤ)
    (amount speed : F32) (_hz : ∀ i : Fin 2048, s.circular_buffer i = F32.fin 0) :
    (process_frame (reset_state s) input output length amount speed).map Prod.snd =
      (process_frame State.init input output length amount speed).map Prod.snd :=
  process_frame_output_indep (reset_state s) State.init input output length
    amount speed amount speed

theorem reset_then_process_matches_fresh_witness :
    (process_frame (reset_state (set_key State.init 5)) [F32.fin 1, F32.fin (1 / 2)]
        [F32.fin 0, F32.fin 0] 2 (F32.fin 1) (F32.fin 1)).map Prod.snd =
      (process_frame State.init [F32.fin 1, F32.fin (1 / 2)]
        [F32.fin 0, F32.fin 0] 2 (F32.fin 1) (F32.fin 1)).map Prod.snd :=
  reset_then_process_matches_fresh (set_key State.init 5) [F32.fin 1, F32.fin (1 / 2)]
    [F32.fin 0, F32.fin 0] 2 (F32.fin 1) (F32.fin 1)
    (by
      intro i
      rw [set_key_eq]
      exact lit_zero)

/-- C15. The saturation stage is always active and does not depend on the correction knobs:
for every input block, any two settings `(amount1, speed1)` and `(amount2, speed2)` and any
two states, `process_frame` produces the same output block, namely `shaped input`. -/
theorem process_frame_ignores_knobs (st1 st2 : State) (input output : List F32) (N : ℕ)
    (amount1 speed1 amount2 speed2 : F32) (hi : input.length = N) (ho : output.length = N) :
    process_frame st1 input output (N : ℤ) amount1 speed1 = some (st1, shaped input) ∧
    process_frame st2 input output (N : ℤ) amount2 speed2 = some (st2, shaped input) ∧
    (process_frame st1 input output (N : ℤ) amount1 speed1).map Prod.snd =
      (process_frame st2 input output (N : ℤ) amount2 speed2).map Prod.snd :=
  ⟨process_frame_eq st1 input output N amount1 speed1 hi ho,
    process_frame_eq st2 input output N amount2 speed2 hi ho,
    process_frame_output_indep st1 st2 input output (N : ℤ) amount1 speed1 amount2 speed2⟩

theorem process_frame_ignores_knobs_witness :
    process_frame State.init [F32.fin 1, F32.fin (1 / 2)] [F32.fin 0, F32.fin 0] ((2 : ℕ) : ℤ)
        (F32.fin 0) (F32.fin 1) = some (State.init, shaped [F32.fin 1, F32.fin (1 / 2)]) ∧
    process_frame (set_key State.init 5) [F32.fin 1, F32.fin (1 / 2)] [F32.fin 0, F32.fin 0]
        ((2 : ℕ) : ℤ) (F32.fin 1) (F32.fin (1 / 4)) =
      some (set_key State.init 5, shaped [F32.fin 1, F32.fin (1 / 2)]) ∧
    (process_frame State.init [F32.fin 1, F32.fin (1 / 2)] [F32.fin 0, F32.fin 0] ((2 : ℕ) : ℤ)
        (F32.fin 0) (F32.fin 1)).map Prod.snd =
      (process_frame (set_key State.init 5) [F32.fin 1, F32.fin (1 / 2)]
        [F32.fin 0, F32.fin 0] ((2 : ℕ) : ℤ) (F32.fin 1) (F32.fin (1 / 4))).map Prod.snd :=
  process_frame_ignores_knobs State.init (set_key State.init 5) [F32.fin 1, F32.fin (1 / 2)]
    [F32.fin 0, F32.fin 0] 2 (F32.fin 0) (F32.fin 1) (F32.fin 1) (F32.fin (1 / 4)) rfl rfl

/-- C17. For every block whose declared length `N` is at most 600 (in particular the
configured block size 512), the overlap region of `get_pitch` is empty, every lag's sum is
`0`, and `get_pitch` returns `44100 / 20 = 2205` whatever the block holds. -/
theorem get_pitch_short_block (buffer : List F32) (len : ℤ) (h : len ≤ 600) :
    (len - MAX_LAG).toNat = 0 ∧
    (∀ tau : ℤ, get_pitch_diff buffer len tau = some (F32.fin 0)) ∧
    F32.ofInt SAMPLE_RATE / F32.ofInt 20 = F32.fin 2205 ∧
    get_pitch buffer len = some (F32.fin 2205) := by
  refine ⟨?_, fun tau => get_pitch_diff_short buffer len tau h, pitch_of_lag_20,
    get_pitch_short buffer len h⟩
  unfold MAX_LAG
  omega

theorem get_pitch_short_block_witness :
    (BUFFER_SIZE - MAX_LAG).toNat = 0 ∧
    (∀ tau : ℤ, get_pitch_diff [F32.fin 1, F32.fin 2] BUFFER_SIZE tau = some (F32.fin 0)) ∧
    F32.ofInt SAMPLE_RATE / F32.ofInt 20 = F32.fin 2205 ∧
    get_pitch [F32.fin 1, F32.fin 2] BUFFER_SIZE = some (F32.fin 2205) :=
  get_pitch_short_block [F32.fin 1, F32.fin 2] BUFFER_SIZE (by unfold BUFFER_SIZE; norm_num)

/-- C20. `set_key` changes only the scale mask: the lookback buffer, write cursor, phase,
`current_pitch`, `target_pitch` and `envelope` are the same after `set_key` as before, and
the resulting state depends only on the last call: `set_key(a)` followed by `set_key(b)`
leaves the same state as `set_key(b)` alone. -/
theorem set_key_frame (st : State) (a b : ℤ) :
    (set_key st b).circular_buffer = st.circular_buffer ∧
    (set_key st b).write_ptr = st.write_ptr ∧
    (set_key st b).phase = st.phase ∧
    (set_key st b).current_pitch = st.current_pitch ∧
    (set_key st b).target_pitch = st.target_pitch ∧
    (set_key st b).envelope = st.envelope ∧
    set_key (set_key st a) b = set_key st b := by
  rw [set_key_eq st b, set_key_eq (set_key st a) b, set_key_eq st a]
  exact ⟨rfl, rfl, rfl, rfl, rfl, rfl, rfl⟩


/-! ## Silence -/

theorem getD_replicate_zero (N i : ℕ) :
    (List.replicate N (F32.fin 0)).getD i (F32.fin 0) = F32.fin 0 := by
  rw [List.getD_eq_getElem?_getD, List.getElem?_replicate]
  split_ifs <;> rfl

theorem diffSum_zeros (N n tau : ℕ) :
    diffSum (List.replicate N (F32.fin 0)) n tau = F32.fin 0 := by
  induction n with
  | zero => rfl
  | succ n ih =>
    have hstep : diffSum (List.replicate N (F32.fin 0)) (n + 1) tau =
        diffSum (List.replicate N (F32.fin 0)) n tau +
          ((List.replicate N (F32.fin 0)).getD n (F32.fin 0) -
            (List.replicate N (F32.fin 0)).getD (n + tau) (F32.fin 0)) *
          ((List.replicate N (F32.fin 0)).getD n (F32.fin 0) -
            (List.replicate N (F32.fin 0)).getD (n + tau) (F32.fin 0)) := by
      unfold diffSum
      rw [List.range_succ, List.foldl_append, List.foldl_cons, List.foldl_nil]
    rw [hstep, ih, getD_replicate_zero, getD_replicate_zero, fin_sub_fin, sub_zero,
      round32_zero, fin_mul_fin, mul_zero, round32_zero, fin_add_fin, add_zero, round32_zero]

/-- C14. For every length `N`, `get_pitch` on a block of `N` zeros does not fail and returns
a finite number that is `≥ 0`: it returns `2205`. -/
theorem get_pitch_silence (N : ℕ) :
    get_pitch (List.replicate N (F32.fin 0)) (N : ℤ) = some (F32.fin 2205) ∧
    (0 : ℚ) ≤ 2205 := by
  refine ⟨?_, by norm_num⟩
  apply get_pitch_of_const_diff _ _ 0 (by norm_num)
  intro tau h1 h2
  have h := get_pitch_diff_eq_diffSum (List.replicate N (F32.fin 0)) N tau.toNat
    (List.length_replicate _ _) (by omega)
  rw [Int.toNat_of_nonneg (by omega), diffSum_zeros] at h
  exact h


/-! ## Rounding is symmetric -/

theorem roundHalfEven_tie (f : ℤ) :
    roundHalfEven ((f : ℚ) + 1 / 2) = if f % 2 = 0 then f else f + 1 := by
  have hf : ⌊(f : ℚ) + 1 / 2⌋ = f := by
    rw [Int.floor_eq_iff]
    constructor <;> norm_num
  unfold roundHalfEven
  simp only [hf]
  have hr : (f : ℚ) + 1 / 2 - (f : ℚ) = 1 / 2 := by ring
  rw [hr]
  simp

theorem roundHalfEven_neg (t : ℚ) : roundHalfEven (-t) = -roundHalfEven t := by
  have hf1 : ((⌊t⌋ : ℤ) : ℚ) ≤ t := Int.floor_le t
  have hf2 : t < ((⌊t⌋ : ℤ) : ℚ) + 1 := Int.lt_floor_add_one t
  rcases lt_trichotomy (t - (⌊t⌋ : ℚ)) (1 / 2) with h | h | h
  · have h1 : roundHalfEven t = ⌊t⌋ :=
      roundHalfEven_eq_of_near t ⌊t⌋ (by linarith) (by linarith)
    have h2 : roundHalfEven (-t) = -⌊t⌋ :=
      roundHalfEven_eq_of_near (-t) (-⌊t⌋) (by push_cast; linarith) (by push_cast; linarith)
    rw [h1, h2]
  · have ht : t = (⌊t⌋ : ℚ) + 1 / 2 := by linarith
    have hnt : -t = ((-⌊t⌋ - 1 : ℤ) : ℚ) + 1 / 2 := by
      push_cast
      linarith
    have e1 : roundHalfEven t = if ⌊t⌋ % 2 = 0 then ⌊t⌋ else ⌊t⌋ + 1 := by
      conv_lhs => rw [ht]
      exact roundHalfEven_tie ⌊t⌋
    rw [e1, hnt, roundHalfEven_tie]
    split_ifs <;> omega
  · have h1 : roundHalfEven t = ⌊t⌋ + 1 :=
      roundHalfEven_eq_of_near t (⌊t⌋ + 1) (by push_cast; linarith) (by push_cast; linarith)
    have h2 : roundHalfEven (-t) = -(⌊t⌋ + 1) :=
      roundHalfEven_eq_of_near (-t) (-(⌊t⌋ + 1)) (by push_cast; linarith)
        (by push_cast; linarith)
    rw [h1, h2]

theorem ulp_neg (q : ℚ) : ulp (-q) = ulp q := by
  unfold ulp binade
  rw [abs_neg]

theorem roundFin_neg (q : ℚ) : roundFin (-q) = -roundFin q := by
  unfold roundFin
  rw [ulp_neg, neg_div, roundHalfEven_neg]
  push_cast
  ring

theorem roundFin_zero : roundFin 0 = 0 := by
  unfold roundFin
  rw [zero_div]
  have : roundHalfEven 0 = 0 := by
    apply roundHalfEven_eq_of_near <;> norm_num
  rw [this]
  simp

theorem round32_neg (q : ℚ) : round32 (-q) = -round32 q := by
  show round32 (-q) = F32.neg (round32 q)
  unfold round32
  simp only [roundFin_neg, abs_neg]
  by_cases h : (2 : ℚ) ^ (128 : ℕ) ≤ |roundFin q|
  · rw [if_pos h, if_pos h]
    have hq : q ≠ 0 := by
      intro h0
      rw [h0, roundFin_zero, abs_zero] at h
      norm_num at h
    show F32.inf (decide (-q < 0)) = F32.inf (!decide (q < 0))
    congr 1
    rcases lt_or_gt_of_ne hq with hlt | hgt
    · have h1 : ¬ (-q < 0) := by linarith
      simp [hlt, h1]
    · have h1 : -q < 0 := by linarith
      have h2 : ¬ q < 0 := by linarith
      simp [h1, h2]
  · rw [if_neg h, if_neg h]
    rfl

/-! ## The shaper is odd -/

theorem f32_neg_neg (a : F32) : -(-a) = a := by
  show F32.neg (F32.neg a) = a
  cases a <;> simp [F32.neg]

theorem f32_neg_mul (a b : F32) : (-a) * b = -(a * b) := by
  show F32.mul (F32.neg a) b = F32.neg (F32.mul a b)
  cases a with
  | nan => cases b <;> rfl
  | fin x =>
    cases b with
    | nan => rfl
    | fin y =>
      show round32 (-x * y) = F32.neg (round32 (x * y))
      rw [neg_mul, round32_neg]
      rfl
    | inf s =>
      show (if -x = 0 then F32.nan else F32.inf (xor (decide (-x < 0)) s)) =
        F32.neg (if x = 0 then F32.nan else F32.inf (xor (decide (x < 0)) s))
      rcases lt_trichotomy x 0 with h | h | h
      · have h1 : ¬ -x = 0 := by intro e; linarith
        have h2 : ¬ x = 0 := by intro e; linarith
        have h3 : ¬ (-x < 0) := by linarith
        rw [if_neg h1, if_neg h2]
        cases s <;> simp [F32.neg, h, h3]
      · subst h
        simp [F32.neg]
      · have h1 : ¬ -x = 0 := by intro e; linarith
        have h2 : ¬ x = 0 := by intro e; linarith
        have h3 : -x < 0 := by linarith
        have h4 : ¬ x < 0 := by linarith
        rw [if_neg h1, if_neg h2]
        cases s <;> simp [F32.neg, h3, h4]
  | inf s =>
    cases b with
    | nan => rfl
    | fin y =>
      show (if y = 0 then F32.nan else F32.inf (xor (!s) (decide (y < 0)))) =
        F32.neg (if y = 0 then F32.nan else F32.inf (xor s (decide (y < 0))))
      by_cases hy : y = 0
      · rw [if_pos hy, if_pos hy]
        rfl
      · rw [if_neg hy, if_neg hy]
        cases s <;> cases decide (y < 0) <;> rfl
    | inf t =>
      show F32.inf (xor (!s) t) = F32.neg (F32.inf (xor s t))
      cases s <;> cases t <;> rfl

theorem f32_mul_neg (a b : F32) : a * (-b) = -(a * b) := by
  show F32.mul a (F32.neg b) = F32.neg (F32.mul a b)
  cases b with
  | nan => cases a <;> rfl
  | fin y =>
    cases a with
    | nan => rfl
    | fin x =>
      show round32 (x * -y) = F32.neg (round32 (x * y))
      rw [mul_neg, round32_neg]
      rfl
    | inf s =>
      show (if -y = 0 then F32.nan else F32.inf (xor s (decide (-y < 0)))) =
        F32.neg (if y = 0 then F32.nan else F32.inf (xor s (decide (y < 0))))
      rcases lt_trichotomy y 0 with h | h | h
      · have h1 : ¬ -y = 0 := by intro e; linarith
        have h2 : ¬ y = 0 := by intro e; linarith
        have h3 : ¬ (-y < 0) := by linarith
        rw [if_neg h1, if_neg h2]
        cases s <;> simp [F32.neg, h, h3]
      · subst h
        simp [F32.neg]
      · have h1 : ¬ -y = 0 := by intro e; linarith
        have h2 : ¬ y = 0 := by intro e; linarith
        have h3 : -y < 0 := by linarith
        have h4 : ¬ y < 0 := by linarith
        rw [if_neg h1, if_neg h2]
        cases s <;> simp [F32.neg, h3, h4]
  | inf t =>
    cases a with
    | nan => rfl
    | fin x =>
      show (if x = 0 then F32.nan else F32.inf (xor (decide (x < 0)) (!t))) =
        F32.neg (if x = 0 then F32.nan else F32.inf (xor (decide (x < 0)) t))
      by_cases hx : x = 0
      · rw [if_pos hx, if_pos hx]
        rfl
      · rw [if_neg hx, if_neg hx]
        cases t <;> cases decide (x < 0) <;> rfl
    | inf s =>
      show F32.inf (xor s (!t)) = F32.neg (F32.inf (xor s t))
      cases s <;> cases t <;> rfl

theorem f32_neg_sub_neg (a b : F32) : (-a) - (-b) = -(a - b) := by
  show F32.sub (F32.neg a) (F32.neg b) = F32.neg (F32.sub a b)
  cases a with
  | nan => cases b <;> rfl
  | fin x =>
    cases b with
    | nan => rfl
    | fin y =>
      show round32 (-x - -y) = F32.neg (round32 (x - y))
      have : -x - -y = -(x - y) := by ring
      rw [this, round32_neg]
      rfl
    | inf t => cases t <;> rfl
  | inf s =>
    cases b with
    | nan => rfl
    | fin y => rfl
    | inf t => cases s <;> cases t <;> rfl

theorem f32_neg_div_fin (a : F32) (c : ℚ) (hc : 0 < c) :
    (-a) / F32.fin c = -(a / F32.fin c) := by
  show F32.div (F32.neg a) (F32.fin c) = F32.neg (F32.div a (F32.fin c))
  have hc0 : ¬ c = 0 := by intro e; linarith
  cases a with
  | nan => rfl
  | fin x =>
    show (if c = 0 then (if -x = 0 then F32.nan else F32.inf (decide (-x < 0)))
        else round32 (-x / c)) =
      F32.neg (if c = 0 then (if x = 0 then F32.nan else F32.inf (decide (x < 0)))
        else round32 (x / c))
    rw [if_neg hc0, if_neg hc0, neg_div, round32_neg]
    rfl
  | inf s =>
    show F32.inf (xor (!s) (decide (c < 0))) = F32.neg (F32.inf (xor s (decide (c < 0))))
    cases s <;> cases decide (c < 0) <;> rfl

/-- The four-at-a-time formula is odd. -/
theorem shape_simd_neg (x : F32) : shape_simd (-x) = -shape_simd x := by
  unfold shape_simd
  simp only
  simp only [f32_neg_mul, f32_mul_neg, f32_neg_neg, f32_neg_sub_neg]

/-- The cleanup formula is odd. -/
theorem shape_scalar_neg (x : F32) : shape_scalar (-x) = -shape_scalar x := by
  unfold shape_scalar
  rw [lit_three]
  simp only [f32_neg_mul, f32_mul_neg, f32_neg_neg]
  rw [f32_neg_div_fin _ 3 (by norm_num), f32_neg_sub_neg]

theorem shaped_map_neg (input : List F32) :
    shaped (input.map (fun x => -x)) = (shaped input).map (fun x => -x) := by
  apply List.ext_getElem?
  intro j
  simp only [shaped_getElem?, List.getElem?_map, List.length_map]
  cases input[j]? with
  | none => split_ifs <;> rfl
  | some x =>
    split_ifs
    · simp only [Option.map_some']
      rw [shape_simd_neg]
    · simp only [Option.map_some']
      rw [shape_scalar_neg]

/-- C16. The shaping function is odd-symmetric: for every sample `x`, the output computed
for `-x` is the negation of the output computed for `x`, on the four-at-a-time path and on
the cleanup path; hence negating every sample of an input block negates every sample of the
output block of `process_frame`. -/
theorem shaper_odd (st : State) (input output : List F32) (N : ℕ) (amount speed : F32)
    (hi : input.length = N) (ho : output.length = N) :
    (∀ x : F32, shape_simd (-x) = -shape_simd x ∧ shape_scalar (-x) = -shape_scalar x) ∧
    ∃ out, process_frame st input output (N : ℤ) amount speed = some (st, out) ∧
      process_frame st (input.map (fun x => -x)) output (N : ℤ) amount speed =
        some (st, out.map (fun x => -x)) := by
  refine ⟨fun x => ⟨shape_simd_neg x, shape_scalar_neg x⟩, shaped input,
    process_frame_eq st input output N amount speed hi ho, ?_⟩
  rw [process_frame_eq st _ output N amount speed (by rw [List.length_map]; exact hi) ho,
    shaped_map_neg]

theorem shaper_odd_witness :
    (∀ x : F32, shape_simd (-x) = -shape_simd x ∧ shape_scalar (-x) = -shape_scalar x) ∧
    ∃ out, process_frame State.init [F32.fin 1, F32.fin (1 / 2)] [F32.fin 0, F32.fin 0]
        ((2 : ℕ) : ℤ) (F32.fin 1) (F32.fin 1) = some (State.init, out) ∧
      process_frame State.init ([F32.fin 1, F32.fin (1 / 2)].map (fun x => -x))
        [F32.fin 0, F32.fin 0] ((2 : ℕ) : ℤ) (F32.fin 1) (F32.fin 1) =
        some (State.init, out.map (fun x => -x)) :=
  shaper_odd State.init [F32.fin 1, F32.fin (1 / 2)] [F32.fin 0, F32.fin 0] 2
    (F32.fin 1) (F32.fin 1) rfl rfl


/-! ## Rounding between two binary32 values -/

end VocalEngine
